import Mathlib

/-!
Packet header dispatch and AEAD nonce construction of quic-go.

A shallow embedding of `internal/handshake/aead.go` and `internal/wire/header.go`.

Conventions of the embedding:

* a Go `[]byte` is a `List Nat` (each element stands for one byte);
* `protocol.PacketNumber` is a `uint64`: it is a `Nat`, reduced modulo `2 ^ 64` where the
  source converts it with `uint64(pn)`;
* a Go run-time panic (slice bound or index out of range) is the outer `Option`'s `none`;
* a Go result `(value, error)` whose value is a pointer or a slice is an `Except`;
* a method with a pointer receiver, or taking a `*bytes.Reader` / `*bytes.Buffer`, returns
  the updated receiver, reader or buffer next to its result;
* functions of the `wire` and `protocol` packages that the two files call but do not define
  are fields of the structure `wire.Helpers`, over which every statement quantifies;
* where it matters that two slices share a backing array, slices are views (`Slice`) of the
  arrays of a `Heap`, and `makeNonce`, `Seal` and `Open` are embedded a second time on that
  heap (`makeNonceH`, `sealerH.Seal`, `openerH.Open`), linked to the first by `makeNonceH_eq`.
-/

namespace QuicGo

/-- A Go byte slice. -/
abbrev Bytes := List Nat

/-- A Go `error` value: `io.EOF`, or any other error (identified by its message). -/
inductive Error where
  | EOF
  | other (msg : String)
deriving DecidableEq, Repr

/-! ## `encoding/binary` and `crypto/cipher` (standard library) -/

/-- The eight bytes `byte(v >> 56), byte(v >> 48), ..., byte(v)` that
`binary.BigEndian.PutUint64` stores. -/
def uint64Bytes (v : Nat) : Bytes :=
  [(v >>> 56) % 256, (v >>> 48) % 256, (v >>> 40) % 256, (v >>> 32) % 256,
   (v >>> 24) % 256, (v >>> 16) % 256, (v >>> 8) % 256, v % 256]

/-- The function `binary.BigEndian.PutUint64(b, v)`: the slice `b` after the call. It panics
(`none`) when `len(b) < 8` (the bounds check `_ = b[7]`) and overwrites `b[0..7]` otherwise. -/
def putUint64 (b : Bytes) (v : Nat) : Option Bytes :=
  if b.length < 8 then none else some (uint64Bytes v ++ b.drop 8)

/-- The function `binary.BigEndian.Uint64(b)`:
`uint64(b[7]) | uint64(b[6])<<8 | ... | uint64(b[0])<<56`; it panics (`none`) when
`len(b) < 8`. -/
def Uint64 (b : Bytes) : Option Nat :=
  match b with
  | b0 :: b1 :: b2 :: b3 :: b4 :: b5 :: b6 :: b7 :: _ =>
    some (b7 ||| b6 <<< 8 ||| b5 <<< 16 ||| b4 <<< 24 ||| b3 <<< 32 ||| b2 <<< 40
      ||| b1 <<< 48 ||| b0 <<< 56)
  | _ => none

/-- The interface `cipher.AEAD`. `Seal` and `Open` take `dst, nonce, plaintext/ciphertext,
additionalData`, in the order of the Go interface. -/
structure AEAD where
  NonceSize : Nat
  Overhead : Nat
  Seal : Bytes → Bytes → Bytes → Bytes → Bytes
  Open : Bytes → Bytes → Bytes → Bytes → Except Error Bytes

namespace handshake

/-! ## `internal/handshake/aead.go` -/

/-- One iteration of the loop body `nonce[i] ^= iv[i]`; an index out of range panics. -/
def xorStep (iv : Bytes) (nonce : Bytes) (i : Nat) : Option Bytes := do
  let x ← nonce[i]?
  let y ← iv[i]?
  pure (nonce.set i (x ^^^ y))

/-- The function `makeNonce`:
```
ivLen := len(iv)
nonce := make([]byte, ivLen)
binary.BigEndian.PutUint64(nonce[ivLen-8:], uint64(pn))
for i := 0; i < ivLen; i++ { nonce[i] ^= iv[i] }
return nonce
```
The slice expression `nonce[ivLen-8:]` panics when `ivLen - 8` is negative. -/
def makeNonce (iv : Bytes) (pn : Nat) : Option Bytes :=
  let ivLen := iv.length
  let nonce := List.replicate ivLen 0
  if ivLen < 8 then none
  else do
    let low ← putUint64 (nonce.drop (ivLen - 8)) (pn % 2 ^ 64)
    let nonce := nonce.take (ivLen - 8) ++ low
    (List.range ivLen).foldlM (xorStep iv) nonce

/-- The struct `sealer`. -/
structure sealer where
  iv : Bytes
  aead : AEAD

/-- The constructor `newSealer`. -/
def newSealer (aead : AEAD) (iv : Bytes) : sealer :=
  { iv := iv, aead := aead }

/-- The method `(s *sealer) Seal(dst, src, pn, ad)`. -/
def sealer.Seal (s : sealer) (dst src : Bytes) (pn : Nat) (ad : Bytes) : Option Bytes := do
  let nonce ← makeNonce s.iv pn
  pure (s.aead.Seal dst nonce src ad)

/-- The method `(s *sealer) Overhead()`. -/
def sealer.Overhead (s : sealer) : Nat :=
  s.aead.Overhead

/-- The struct `opener`. -/
structure opener where
  iv : Bytes
  aead : AEAD

/-- The constructor `newOpener`. -/
def newOpener (aead : AEAD) (iv : Bytes) : opener :=
  { iv := iv, aead := aead }

/-- The method `(o *opener) Open(dst, src, pn, ad)`. -/
def opener.Open (o : opener) (dst src : Bytes) (pn : Nat) (ad : Bytes) :
    Option (Except Error Bytes) := do
  let nonce ← makeNonce o.iv pn
  pure (o.aead.Open dst nonce src ad)

end handshake

/-! ## Slices that share storage

In Go a `[]byte` is a view (offset, length, capacity) of a backing array, and two slices
can share one array. The definitions below place the slices of `aead.go` in a heap of
backing arrays, so that what a call writes, and where, can be stated. -/

/-- A Go slice value: the index of its backing array in the heap, the offset of its first
byte in that array, its length and its capacity. -/
structure Slice where
  arr : Nat
  off : Nat
  len : Nat
  cap : Nat
deriving DecidableEq, Repr

/-- The heap: the backing arrays, by index. -/
structure Heap where
  arrays : List Bytes
deriving DecidableEq, Repr

/-- The bytes a slice denotes in a heap. -/
def Heap.read (h : Heap) (s : Slice) : Bytes :=
  ((h.arrays.getD s.arr []).drop s.off).take s.len

/-- The slice lies within an array of the heap. -/
def Heap.Valid (h : Heap) (s : Slice) : Prop :=
  s.arr < h.arrays.length ∧ s.len ≤ s.cap ∧ s.off + s.cap ≤ (h.arrays.getD s.arr []).length

/-- The array `a` with the bytes `bs` stored from position `p` on. -/
def writeAt : Bytes → Nat → Bytes → Bytes
  | a, _, [] => a
  | a, p, b :: bs => writeAt (a.set p b) (p + 1) bs

/-- The heap after storing `bs` into array `a` from position `p` on. -/
def Heap.store (h : Heap) (a p : Nat) (bs : Bytes) : Heap :=
  { arrays := h.arrays.set a (writeAt (h.arrays.getD a []) p bs) }

/-- The expression `make([]byte, n)`: a new array of `n` zero bytes and the slice of it. -/
def Heap.make (h : Heap) (n : Nat) : Heap × Slice :=
  ({ arrays := h.arrays ++ [List.replicate n 0] },
   { arr := h.arrays.length, off := 0, len := n, cap := n })

/-- Appending `bs` to the slice `s` the way the AEAD implementations of `crypto/cipher` do
(`sliceForAppend`): in place, into the spare capacity of `s`, when `cap(s)` suffices, and
into a new array holding a copy of `s` otherwise. -/
def Heap.append (h : Heap) (s : Slice) (bs : Bytes) : Heap × Slice :=
  if s.len + bs.length ≤ s.cap then
    (h.store s.arr (s.off + s.len) bs, { s with len := s.len + bs.length })
  else
    ({ arrays := h.arrays ++ [h.read s ++ bs] },
     { arr := h.arrays.length, off := 0, len := s.len + bs.length,
       cap := s.len + bs.length })

/-- The index expression `s[i]`, read; it panics when `i` is not below `len(s)`. -/
def Heap.index (h : Heap) (s : Slice) (i : Nat) : Option Nat :=
  if i < s.len then (h.arrays.getD s.arr [])[s.off + i]? else none

/-- The assignment `s[i] = v`; it panics when `i` is not below `len(s)`. -/
def Heap.setIndex (h : Heap) (s : Slice) (i v : Nat) : Option Heap :=
  if i < s.len then some (h.store s.arr (s.off + i) [v]) else none

/-- The slice expression `s[k:]` for `k >= 0`; it panics when `k` exceeds `len(s)`. -/
def Slice.drop (s : Slice) (k : Nat) : Option Slice :=
  if k ≤ s.len then some { s with off := s.off + k, len := s.len - k, cap := s.cap - k }
  else none

/-- The call `binary.BigEndian.PutUint64(s, v)` on a slice of the heap. -/
def Heap.putUint64 (h : Heap) (s : Slice) (v : Nat) : Option Heap :=
  if s.len < 8 then none else some (h.store s.arr s.off (uint64Bytes v))

/-- The spare capacity of `dst` (the bytes from `len(dst)` up to `cap(dst)`) shares no byte
with the slice `iv`. -/
def SpareDisjoint (dst iv : Slice) : Prop :=
  dst.arr ≠ iv.arr ∨ dst.off + dst.cap ≤ iv.off ∨ iv.off + iv.len ≤ dst.off + dst.len

/-- A `cipher.AEAD` acting on the heap: the primitive as a function of the bytes of its
arguments, and the bytes a rejecting `Open` leaves behind in the storage it would have
appended to (the GCM of `crypto/cipher` zeroes the plaintext it had written there). -/
structure HeapAEAD where
  aead : AEAD
  residue : Bytes → Bytes → Bytes → Bytes

/-- The method `Seal(dst, nonce, plaintext, additionalData)` of the primitive on the heap:
it appends its output for `(nonce, plaintext, additionalData)` to `dst`. -/
def HeapAEAD.Seal (a : HeapAEAD) (h : Heap) (dst nonce src ad : Slice) : Heap × Slice :=
  h.append dst (a.aead.Seal [] (h.read nonce) (h.read src) (h.read ad))

/-- The method `Open(dst, nonce, ciphertext, additionalData)` of the primitive on the heap:
on success it appends the plaintext to `dst`; on failure it returns no slice. -/
def HeapAEAD.Open (a : HeapAEAD) (h : Heap) (dst nonce src ad : Slice) :
    Heap × Except Error Slice :=
  match a.aead.Open [] (h.read nonce) (h.read src) (h.read ad) with
  | .ok p => ((h.append dst p).1, .ok (h.append dst p).2)
  | .error e =>
    ((h.append dst (a.residue (h.read nonce) (h.read src) (h.read ad))).1, .error e)

namespace handshake

/-- The loop body `nonce[i] ^= iv[i]` on the heap. -/
def xorStepH (iv nonce : Slice) (h : Heap) (i : Nat) : Option Heap := do
  let x ← h.index nonce i
  let y ← h.index iv i
  h.setIndex nonce i (x ^^^ y)

/-- The function `makeNonce` on the heap: `iv` is the caller's slice, `nonce` a new array;
the heap and the slice `nonce` when the function returns. -/
def makeNonceH (h : Heap) (iv : Slice) (pn : Nat) : Option (Heap × Slice) :=
  let ivLen := iv.len
  let (h1, nonce) := h.make ivLen
  if ivLen < 8 then none
  else do
    let low ← nonce.drop (ivLen - 8)
    let h2 ← h1.putUint64 low (pn % 2 ^ 64)
    let h3 ← (List.range ivLen).foldlM (xorStepH iv nonce) h2
    pure (h3, nonce)

/-- The struct `sealer` on the heap: the field `iv` is a slice value. -/
structure sealerH where
  iv : Slice
  aead : HeapAEAD

/-- The constructor `newSealer` on the heap: it stores the caller's slice, not a copy of
its bytes. -/
def newSealerH (aead : HeapAEAD) (iv : Slice) : sealerH :=
  { iv := iv, aead := aead }

/-- The method `(s *sealer) Seal(dst, src, pn, ad)` on the heap. -/
def sealerH.Seal (s : sealerH) (h : Heap) (dst src : Slice) (pn : Nat) (ad : Slice) :
    Option (Heap × Slice) := do
  let (h1, nonce) ← makeNonceH h s.iv pn
  pure (s.aead.Seal h1 dst nonce src ad)

/-- The struct `opener` on the heap. -/
structure openerH where
  iv : Slice
  aead : HeapAEAD

/-- The constructor `newOpener` on the heap. -/
def newOpenerH (aead : HeapAEAD) (iv : Slice) : openerH :=
  { iv := iv, aead := aead }

/-- The method `(o *opener) Open(dst, src, pn, ad)` on the heap. -/
def openerH.Open (o : openerH) (h : Heap) (dst src : Slice) (pn : Nat) (ad : Slice) :
    Option (Heap × Except Error Slice) := do
  let (h1, nonce) ← makeNonceH h o.iv pn
  pure (o.aead.Open h1 dst nonce src ad)

/-- The arguments `(dst, src, pn, ad)` of one call of `Seal` or `Open`. -/
structure Call where
  dst : Slice
  src : Slice
  pn : Nat
  ad : Slice
deriving DecidableEq, Repr

/-- A sequence of calls of `Seal` on one sealer: the heap after the last call and the
returned slices in order. -/
def sealerH.SealMany (s : sealerH) : Heap → List Call → Option (Heap × List Slice)
  | h, [] => some (h, [])
  | h, c :: cs => do
    let (h1, r) ← s.Seal h c.dst c.src c.pn c.ad
    let (h2, rs) ← sealerH.SealMany s h1 cs
    pure (h2, r :: rs)

/-- A sequence of calls of `Open` on one opener: the heap after the last call and the
results in order. -/
def openerH.OpenMany (o : openerH) :
    Heap → List Call → Option (Heap × List (Except Error Slice))
  | h, [] => some (h, [])
  | h, c :: cs => do
    let (h1, r) ← o.Open h c.dst c.src c.pn c.ad
    let (h2, rs) ← openerH.OpenMany o h1 cs
    pure (h2, r :: rs)

end handshake

/-! ## `bytes.Reader` (standard library) -/

/-- The struct `bytes.Reader`: the slice, the read index and the index of the previous rune
(negative when there is none). -/
structure Reader where
  s : Bytes
  i : Nat
  prevRune : Int
deriving DecidableEq, Repr

/-- The function `bytes.NewReader`. -/
def NewReader (b : Bytes) : Reader :=
  { s := b, i := 0, prevRune := -1 }

/-- The method `(r *Reader) ReadByte()`: it resets `prevRune`, returns `io.EOF` at the end of
the slice and otherwise returns the byte at the index and advances. -/
def Reader.ReadByte (r : Reader) : Except Error Nat × Reader :=
  let r1 := { r with prevRune := -1 }
  match r1.s[r1.i]? with
  | none => (.error Error.EOF, r1)
  | some b => (.ok b, { r1 with i := r1.i + 1 })

/-- The method `(r *Reader) UnreadByte()`: an error at the beginning of the slice, otherwise
one step back. -/
def Reader.UnreadByte (r : Reader) : Option Error × Reader :=
  if r.i ≤ 0 then (some (Error.other "bytes.Reader.UnreadByte: at beginning of slice"), r)
  else (none, { r with prevRune := -1, i := r.i - 1 })

namespace wire

/-! ## `internal/wire/header.go` -/

/-- The type `protocol.Perspective`, with the two values the file uses. -/
inductive Perspective where
  | PerspectiveServer
  | PerspectiveClient
deriving DecidableEq, Repr

/-- The struct `Header`. -/
structure Header where
  IsPublicHeader : Bool
  Raw : Bytes
  Version : Nat
  DestConnectionID : Bytes
  SrcConnectionID : Bytes
  OmitConnectionID : Bool
  IsVersionNegotiation : Bool
  SupportedVersions : List Nat
  VersionFlag : Bool
  ResetFlag : Bool
  DiversificationNonce : Bytes
  Type' : Nat
  IsLongHeader : Bool
  KeyPhase : Int
  Length : Nat
deriving DecidableEq, Repr

/-- The functions that `header.go` calls and that other files of the packages `wire` and
`protocol` define: `VersionNumber.UsesTLS`, the two format-specific parsers, packet-number
decoders, serialisers, length functions and loggers. A logger is the list of the lines it
has received. -/
structure Helpers where
  UsesTLS : Nat → Bool
  parsePublicHeader : Reader → Perspective → Except Error Header × Reader
  parseHeader : Reader → Except Error Header × Reader
  readPublicHeaderPacketNumber : Reader → Nat → (Nat × Nat × Option Error) × Reader
  readPacketNumber : Reader → Nat → (Nat × Nat × Option Error) × Reader
  writePublicHeader : Header → Bytes → Nat → Nat → Perspective → Option Error × Header × Bytes
  writeHeader : Header → Bytes → Nat → Nat → Option Error × Header × Bytes
  getPublicHeaderLength : Header → Nat → Perspective → Nat × Option Error
  getHeaderLength : Header → Nat → Nat
  logPublicHeader : Header → List String → List String
  logHeader : Header → List String → List String

/-- The function `parsePacketHeader`. -/
def parsePacketHeader (H : Helpers) (b : Reader) (sentBy : Perspective)
    (isPublicHeader : Bool) : Except Error Header × Reader :=
  if isPublicHeader then
    match H.parsePublicHeader b sentBy with
    | (.error err, b1) => (.error err, b1)
    | (.ok hdr, b1) => (.ok { hdr with IsPublicHeader := true }, b1)
  else
    H.parseHeader b

/-- The function `ParseHeaderSentByServer`. -/
def ParseHeaderSentByServer (H : Helpers) (b : Reader) : Except Error Header × Reader :=
  match b.ReadByte with
  | (.error err, b1) => (.error err, b1)
  | (.ok typeByte, b1) =>
    let b2 := b1.UnreadByte.2
    let isPublicHeader : Bool :=
      if typeByte &&& 0x80 > 0 then false
      else decide (typeByte &&& 0x30 ≠ 0x30)
    parsePacketHeader H b2 Perspective.PerspectiveServer isPublicHeader

/-- The function `ParseHeaderSentByClient`. -/
def ParseHeaderSentByClient (H : Helpers) (b : Reader) : Except Error Header × Reader :=
  match b.ReadByte with
  | (.error err, b1) => (.error err, b1)
  | (.ok typeByte, b1) =>
    let b2 := b1.UnreadByte.2
    let isPublicHeader : Bool := decide (typeByte &&& 0x88 = 0x8)
    parsePacketHeader H b2 Perspective.PerspectiveClient isPublicHeader

/-- The function `ReadPacketNumber`. -/
def ReadPacketNumber (H : Helpers) (b : Reader) (flagByte : Nat) (version : Nat) :
    (Nat × Nat × Option Error) × Reader :=
  if !H.UsesTLS version then
    H.readPublicHeaderPacketNumber b flagByte
  else
    H.readPacketNumber b flagByte

/-- The method `(h *Header) Write`: the error, the header and the buffer after the call. -/
def Header.Write (H : Helpers) (h : Header) (b : Bytes) (pn pnLen : Nat) (pers : Perspective)
    (version : Nat) : Option Error × Header × Bytes :=
  if !H.UsesTLS version then
    let h1 := { h with IsPublicHeader := true }
    H.writePublicHeader h1 b pn pnLen pers
  else
    H.writeHeader h b pn pnLen

/-- The method `(h *Header) GetLength`. -/
def Header.GetLength (H : Helpers) (h : Header) (pnLen : Nat) (pers : Perspective)
    (version : Nat) : Nat × Option Error :=
  if !H.UsesTLS version then
    H.getPublicHeaderLength h pnLen pers
  else
    (H.getHeaderLength h pnLen, none)

/-- The method `(h *Header) Log`: the logger after the call. -/
def Header.Log (H : Helpers) (h : Header) (logger : List String) : List String :=
  if h.IsPublicHeader then H.logPublicHeader h logger else H.logHeader h logger

end wire

/-! ## Concrete collaborators

Instances of `cipher.AEAD` and of `wire.Helpers` on which the statements below are
evaluated at explicit inputs. -/

/-- The one-byte tag of `sampleAEAD`: the sum of all bytes of nonce, text and additional
data, modulo 256. -/
def sampleTag (nonce text ad : Bytes) : Nat :=
  (nonce.sum + text.sum + ad.sum) % 256

/-- A small AEAD: the text is kept in clear and followed by the one-byte `sampleTag`;
`Open` rejects an input without tag or with a wrong one. -/
def sampleAEAD : AEAD where
  NonceSize := 12
  Overhead := 1
  Seal := fun dst nonce plaintext ad => dst ++ plaintext ++ [sampleTag nonce plaintext ad]
  Open := fun dst nonce ciphertext ad =>
    match ciphertext.getLast? with
    | none => .error (Error.other "cipher: message authentication failed")
    | some tag =>
      if tag = sampleTag nonce ciphertext.dropLast ad then .ok (dst ++ ciphertext.dropLast)
      else .error (Error.other "cipher: message authentication failed")

/-- The byte sequence `bs` with bit `k` of byte `i` flipped (unchanged when there is no
byte `i`). -/
def flipBit (bs : Bytes) (i k : Nat) : Bytes :=
  match bs[i]? with
  | some x => bs.set i (x ^^^ 2 ^ k)
  | none => bs

/-- The pair `(C', A')` is the pair `(C, A)` with exactly one bit flipped, in the
ciphertext or in the associated data. -/
def SingleBitFlip (C A C' A' : Bytes) : Prop :=
  (∃ i k, i < C.length ∧ k < 8 ∧ C' = flipBit C i k ∧ A' = A) ∨
  (∃ i k, i < A.length ∧ k < 8 ∧ C' = C ∧ A' = flipBit A i k)

/-- Modelled from the spec: the integrity of the injected AEAD primitive, which is built
outside `aead.go`. The spec defines an AEAD as binding the associated data into the
authentication tag and lets `Open` fail when the tag does not verify. For one sealed
message `Seal(nil, nonce, P, A)` this reads: `Open` at the same nonce rejects every pair
`(C', A')` that differs from `(Seal(nil, nonce, P, A), A)` in exactly one bit. -/
def AEAD.RejectsBitFlips (a : AEAD) (nonce P A : Bytes) : Prop :=
  ∀ C' A', SingleBitFlip (a.Seal [] nonce P A) A C' A' → ∃ e, a.Open [] nonce C' A' = .error e

/-- The sample AEAD on the heap; when it rejects it has written nothing. -/
def sampleHeapAEAD : HeapAEAD :=
  { aead := sampleAEAD, residue := fun _ _ _ => [] }

/-- A heap with four arrays: an IV `1, ..., 12`, a text `1, 2, 3`, associated data `9` and
a buffer of eight zero bytes. -/
def sampleHeap : Heap :=
  { arrays := [[1, 2, 3, 4, 5, 6, 7, 8, 9, 10, 11, 12], [1, 2, 3], [9],
      [0, 0, 0, 0, 0, 0, 0, 0]] }

/-- The slice of the whole IV array of `sampleHeap`. -/
def sampleIV : Slice := { arr := 0, off := 0, len := 12, cap := 12 }

/-- The slice `iv[:0]` of that IV: no bytes, and the whole array as spare capacity. -/
def sampleIVPrefix : Slice := { arr := 0, off := 0, len := 0, cap := 12 }

/-- The slice of the text of `sampleHeap`. -/
def sampleSrc : Slice := { arr := 1, off := 0, len := 3, cap := 3 }

/-- The slice of the associated data of `sampleHeap`. -/
def sampleAd : Slice := { arr := 2, off := 0, len := 1, cap := 1 }

/-- The empty slice at the start of the buffer of `sampleHeap`, with capacity 8. -/
def sampleBuf : Slice := { arr := 3, off := 0, len := 0, cap := 8 }

/-- A header with every field zero. -/
def zeroHeader : wire.Header :=
  { IsPublicHeader := false, Raw := [], Version := 0, DestConnectionID := [],
    SrcConnectionID := [], OmitConnectionID := false, IsVersionNegotiation := false,
    SupportedVersions := [], VersionFlag := false, ResetFlag := false,
    DiversificationNonce := [], Type' := 0, IsLongHeader := false, KeyPhase := 0, Length := 0 }

/-- Small stand-ins for the helper functions: each parser consumes the first byte and
records one of its bits, each packet-number decoder reads one byte, version 101 is the
only one that uses TLS. -/
def sampleHelpers : wire.Helpers where
  UsesTLS := fun v => v == 101
  parsePublicHeader := fun b _ =>
    match b.ReadByte with
    | (.error err, b1) => (.error err, b1)
    | (.ok t, b1) => (.ok { zeroHeader with VersionFlag := decide (t &&& 0x01 ≠ 0) }, b1)
  parseHeader := fun b =>
    match b.ReadByte with
    | (.error err, b1) => (.error err, b1)
    | (.ok t, b1) => (.ok { zeroHeader with IsLongHeader := decide (t &&& 0x80 ≠ 0) }, b1)
  readPublicHeaderPacketNumber := fun b _ =>
    match b.ReadByte with
    | (.error err, b1) => ((0, 0, some err), b1)
    | (.ok t, b1) => ((t, 1, none), b1)
  readPacketNumber := fun b _ =>
    match b.ReadByte with
    | (.error err, b1) => ((0, 0, some err), b1)
    | (.ok t, b1) => ((t % 128, 1, none), b1)
  writePublicHeader := fun h b pn _ _ => (none, h, b ++ [0x08, pn % 256])
  writeHeader := fun h b pn _ => (none, h, b ++ [0x30, pn % 256])
  getPublicHeaderLength := fun _ _ _ => (2, none)
  getHeaderLength := fun _ _ => 2
  logPublicHeader := fun _ l => l ++ ["Public Header"]
  logHeader := fun _ l => l ++ ["Header"]

/-- The sample helpers with serialisers that reject every header: each leaves header and
buffer as they are and returns an error. -/
def rejectingHelpers : wire.Helpers :=
  { sampleHelpers with
    writePublicHeader := fun h b _ _ _ => (some (Error.other "PublicHeader: invalid"), h, b)
    writeHeader := fun h b _ _ => (some (Error.other "Header: invalid"), h, b) }

open handshake wire

/-! ## Lemmas on `makeNonce` -/

theorem xorStep_eq (iv r : Bytes) (k x y : Nat) (hx : r[k]? = some x) (hy : iv[k]? = some y) :
    xorStep iv r k = some (r.set k (x ^^^ y)) := by
  unfold xorStep
  rw [hx, hy]
  rfl

/-- The loop of `makeNonce` after `k` iterations: it has not panicked, the first `k` bytes
are XOR-ed with the IV and the others are untouched. -/
theorem xorLoop_spec (iv nonce : Bytes) (h : nonce.length = iv.length) :
    ∀ k, k ≤ iv.length →
      ∃ r, (List.range k).foldlM (xorStep iv) nonce = some r ∧ r.length = iv.length ∧
        (∀ j, j < k → r[j]? = some (nonce[j]?.getD 0 ^^^ iv[j]?.getD 0)) ∧
        (∀ j, k ≤ j → r[j]? = nonce[j]?) := by
  intro k
  induction k with
  | zero =>
    intro _
    exact ⟨nonce, by simp, h, by simp, by simp⟩
  | succ k ih =>
    intro hk
    obtain ⟨r, hr, hlen, hlo, hhi⟩ := ih (by omega)
    have hk1 : k < nonce.length := by omega
    have hk2 : k < iv.length := by omega
    have hrk : r[k]? = some (nonce[k]?.getD 0) := by
      rw [hhi k (le_refl k), List.getElem?_eq_getElem hk1]
      rfl
    have hivk : iv[k]? = some (iv[k]?.getD 0) := by
      rw [List.getElem?_eq_getElem hk2]
      rfl
    refine ⟨r.set k (nonce[k]?.getD 0 ^^^ iv[k]?.getD 0), ?_, ?_, ?_, ?_⟩
    · rw [List.range_succ, List.foldlM_append, hr]
      have hstep := xorStep_eq iv r k _ _ hrk hivk
      simp [hstep]
    · rw [List.length_set]
      exact hlen
    · intro j hj
      rw [List.getElem?_set]
      by_cases hjk : k = j
      · subst hjk
        rw [if_pos rfl, if_pos (by omega)]
      · rw [if_neg hjk]
        exact hlo j (by omega)
    · intro j hj
      rw [List.getElem?_set_ne (by omega)]
      exact hhi j (by omega)

/-- For an IV of at least 8 bytes the slice and the 8-byte write of `makeNonce` do not
panic, and the loop starts from `ivLen - 8` zero bytes followed by the packet number. -/
theorem makeNonce_unfold (iv : Bytes) (pn : Nat) (hlen : 8 ≤ iv.length) :
    makeNonce iv pn =
      (List.range iv.length).foldlM (xorStep iv)
        (List.replicate (iv.length - 8) 0 ++ uint64Bytes (pn % 2 ^ 64)) := by
  have h8 : ¬ iv.length < 8 := by omega
  have hd : ((List.replicate iv.length 0).drop (iv.length - 8)).length = 8 := by
    simp; omega
  have hdrop : (List.drop 8 (List.drop (iv.length - 8) (List.replicate iv.length 0))) = [] := by
    apply List.eq_nil_of_length_eq_zero
    rw [List.length_drop, hd]
  have htake : List.take (iv.length - 8) (List.replicate iv.length 0)
      = List.replicate (iv.length - 8) 0 := by
    rw [List.take_replicate]
    congr 1
    omega
  unfold makeNonce putUint64
  simp only [h8, if_false, hd, Nat.lt_irrefl]
  rw [hdrop, htake]
  simp only [Option.bind_eq_bind, Option.some_bind, List.append_nil]

theorem uint64Bytes_length (v : Nat) : (uint64Bytes v).length = 8 := rfl

/-- The bytes of the nonce, position by position. -/
theorem makeNonce_getElem (iv : Bytes) (pn : Nat) (hlen : 8 ≤ iv.length) :
    ∃ nonce, makeNonce iv pn = some nonce ∧ nonce.length = iv.length ∧
      (∀ i, i < iv.length - 8 → nonce[i]? = iv[i]?) ∧
      (∀ j, j < 8 → nonce[iv.length - 8 + j]? =
        some ((uint64Bytes (pn % 2 ^ 64))[j]?.getD 0 ^^^ iv[iv.length - 8 + j]?.getD 0)) := by
  have hl0 : (List.replicate (iv.length - 8) 0 ++ uint64Bytes (pn % 2 ^ 64)).length
      = iv.length := by
    rw [List.length_append, List.length_replicate, uint64Bytes_length]
    omega
  obtain ⟨r, hr, hrlen, hlo, _⟩ := xorLoop_spec iv _ hl0 iv.length (le_refl _)
  refine ⟨r, ?_, hrlen, ?_, ?_⟩
  · rw [makeNonce_unfold iv pn hlen]
    exact hr
  · intro i hi
    rw [hlo i (by omega), List.getElem?_append_left (by simpa using hi),
      List.getElem?_replicate, if_pos hi, List.getElem?_eq_getElem (by omega : i < iv.length)]
    simp
  · intro j hj
    rw [hlo _ (by omega), List.getElem?_append_right (by simp)]
    simp

theorem uint64Bytes_getElem (v j : Nat) (hj : j < 8) :
    (uint64Bytes v)[j]? = some (v / 256 ^ (7 - j) % 256) := by
  interval_cases j <;> simp [uint64Bytes, Nat.shiftRight_eq_div_pow]

/-- An OR with a value shifted past every set bit is an addition. -/
theorem or_shiftLeft_eq_add (x b k : Nat) (hx : x < 2 ^ k) : x ||| b <<< k = b * 2 ^ k + x := by
  rw [Nat.or_comm, Nat.shiftLeft_eq, Nat.mul_comm, ← Nat.mul_add_lt_is_or hx]

/-- Reading back the eight bytes written by `PutUint64` gives the value written. -/
theorem Uint64_uint64Bytes (v : Nat) (hv : v < 2 ^ 64) : Uint64 (uint64Bytes v) = some v := by
  simp only [Uint64, uint64Bytes, Nat.shiftRight_eq_div_pow]
  rw [or_shiftLeft_eq_add _ _ 8 (by omega), or_shiftLeft_eq_add _ _ 16 (by omega),
    or_shiftLeft_eq_add _ _ 24 (by omega), or_shiftLeft_eq_add _ _ 32 (by omega),
    or_shiftLeft_eq_add _ _ 40 (by omega), or_shiftLeft_eq_add _ _ 48 (by omega),
    or_shiftLeft_eq_add _ _ 56 (by omega)]
  congr 1
  omega

/-- XOR-ing the last eight bytes of the nonce with the last eight bytes of the IV gives the
eight big-endian bytes of the packet number. -/
theorem makeNonce_xor_iv (iv : Bytes) (pn : Nat) (hlen : 8 ≤ iv.length) (nonce : Bytes)
    (hn : makeNonce iv pn = some nonce) :
    List.zipWith (· ^^^ ·) (nonce.drop (iv.length - 8)) (iv.drop (iv.length - 8))
      = uint64Bytes (pn % 2 ^ 64) := by
  obtain ⟨r, hr, hrlen, _, hhi⟩ := makeNonce_getElem iv pn hlen
  rw [hn] at hr
  obtain rfl : nonce = r := Option.some.inj hr
  apply List.ext_getElem?
  intro j
  rw [List.getElem?_zipWith, List.getElem?_drop, List.getElem?_drop]
  by_cases hj : j < 8
  · have hiv : iv[iv.length - 8 + j]? = some (iv[iv.length - 8 + j]?.getD 0) := by
      rw [List.getElem?_eq_getElem (by omega : iv.length - 8 + j < iv.length)]
      rfl
    have hb : (uint64Bytes (pn % 2 ^ 64))[j]?
        = some ((uint64Bytes (pn % 2 ^ 64))[j]?.getD 0) := by
      rw [uint64Bytes_getElem _ j hj]
      rfl
    rw [hhi j hj, hiv, hb]
    simp only [Option.getD_some, Nat.xor_cancel_right]
  · have h1 : nonce[iv.length - 8 + j]? = none :=
      List.getElem?_eq_none (by omega)
    have h2 : (uint64Bytes (pn % 2 ^ 64))[j]? = none :=
      List.getElem?_eq_none (by rw [uint64Bytes_length]; omega)
    rw [h1, h2]

/-- C1: for an IV of length N >= 8, `makeNonce iv pn` returns N bytes; the first N-8 are
those of the IV, and byte N-8+j is the IV byte XOR byte j of the packet number written as
an 8-byte big-endian integer. With 12 zero bytes and pn = 1 the last 8 bytes are
00..00 01, with 12 bytes 0xFF they are FF..FF FE. -/
theorem makeNonce_layout (iv : Bytes) (pn : Nat) (hlen : 8 ≤ iv.length) :
    (∃ nonce, makeNonce iv pn = some nonce ∧ nonce.length = iv.length ∧
      (∀ i, i < iv.length - 8 → nonce[i]? = iv[i]?) ∧
      (∀ j, j < 8 → ∃ x, iv[iv.length - 8 + j]? = some x ∧
        nonce[iv.length - 8 + j]? = some (x ^^^ ((pn % 2 ^ 64) / 256 ^ (7 - j) % 256)))) ∧
    (makeNonce (List.replicate 12 0) 1).map (List.drop 4) = some [0, 0, 0, 0, 0, 0, 0, 1] ∧
    (makeNonce (List.replicate 12 0xFF) 1).map (List.drop 4)
      = some [0xFF, 0xFF, 0xFF, 0xFF, 0xFF, 0xFF, 0xFF, 0xFE] := by
  refine ⟨?_, by decide, by decide⟩
  obtain ⟨r, hr, hrlen, hlo, hhi⟩ := makeNonce_getElem iv pn hlen
  refine ⟨r, hr, hrlen, hlo, ?_⟩
  intro j hj
  refine ⟨iv[iv.length - 8 + j]?.getD 0, ?_, ?_⟩
  · rw [List.getElem?_eq_getElem (by omega : iv.length - 8 + j < iv.length)]
    rfl
  · rw [hhi j hj, uint64Bytes_getElem _ j hj, Nat.xor_comm]
    rfl

/-- C1 at the IV `1, 2, ..., 12` and packet number `0x0102`. -/
theorem makeNonce_layout_witness :
    8 ≤ [1, 2, 3, 4, 5, 6, 7, 8, 9, 10, 11, 12].length ∧
    makeNonce [1, 2, 3, 4, 5, 6, 7, 8, 9, 10, 11, 12] 0x0102
      = some [1, 2, 3, 4, 5, 6, 7, 8, 9, 10, 10, 14] ∧
    ∃ nonce, makeNonce [1, 2, 3, 4, 5, 6, 7, 8, 9, 10, 11, 12] 0x0102 = some nonce ∧
      nonce.length = 12 ∧ (∀ i, i < 4 → nonce[i]? = [1, 2, 3, 4, 5, 6, 7, 8, 9, 10, 11, 12][i]?) :=
  ⟨by decide, by decide,
    match (makeNonce_layout [1, 2, 3, 4, 5, 6, 7, 8, 9, 10, 11, 12] 0x0102 (by decide)).1 with
    | ⟨nonce, h1, h2, h3, _⟩ => ⟨nonce, h1, h2, h3⟩⟩

/-- C5: for an IV of at least 8 bytes and packet numbers below 2^64, two nonces are equal
exactly when the packet numbers are; XOR-ing the last 8 bytes of the nonce with the last
8 bytes of the IV and reading them big-endian gives the packet number back. -/
theorem makeNonce_injective (iv : Bytes) (pn1 pn2 : Nat) (hlen : 8 ≤ iv.length)
    (h1 : pn1 < 2 ^ 64) (h2 : pn2 < 2 ^ 64) :
    (makeNonce iv pn1 = makeNonce iv pn2 ↔ pn1 = pn2) ∧
    (∀ nonce, makeNonce iv pn1 = some nonce →
      Uint64 (List.zipWith (· ^^^ ·) (nonce.drop (iv.length - 8)) (iv.drop (iv.length - 8)))
        = some pn1) := by
  have key : ∀ pn, pn < 2 ^ 64 → ∀ nonce, makeNonce iv pn = some nonce →
      Uint64 (List.zipWith (· ^^^ ·) (nonce.drop (iv.length - 8)) (iv.drop (iv.length - 8)))
        = some pn := by
    intro pn hpn nonce hn
    rw [makeNonce_xor_iv iv pn hlen nonce hn, Nat.mod_eq_of_lt hpn]
    exact Uint64_uint64Bytes pn hpn
  refine ⟨⟨?_, fun h => by rw [h]⟩, key pn1 h1⟩
  intro heq
  obtain ⟨r, hr, _⟩ := makeNonce_getElem iv pn1 hlen
  have e1 := key pn1 h1 r hr
  have e2 := key pn2 h2 r (by rw [← heq]; exact hr)
  rw [e1] at e2
  exact Option.some.inj e2

/-- C5 at the IV `1, 2, ..., 12` and the packet numbers 5 and 6. -/
theorem makeNonce_injective_witness :
    8 ≤ [1, 2, 3, 4, 5, 6, 7, 8, 9, 10, 11, 12].length ∧ 5 < 2 ^ 64 ∧ 6 < 2 ^ 64 ∧
    makeNonce [1, 2, 3, 4, 5, 6, 7, 8, 9, 10, 11, 12] 5
      ≠ makeNonce [1, 2, 3, 4, 5, 6, 7, 8, 9, 10, 11, 12] 6 ∧
    Uint64 (List.zipWith (· ^^^ ·) [5, 6, 7, 8, 9, 10, 11, 9] [5, 6, 7, 8, 9, 10, 11, 12])
      = some 5 :=
  ⟨by decide, by decide, by decide,
    fun h => absurd ((makeNonce_injective [1, 2, 3, 4, 5, 6, 7, 8, 9, 10, 11, 12] 5 6
      (by decide) (by decide) (by decide)).1.mp h) (by decide),
    (makeNonce_injective [1, 2, 3, 4, 5, 6, 7, 8, 9, 10, 11, 12] 5 6
      (by decide) (by decide) (by decide)).2 [1, 2, 3, 4, 5, 6, 7, 8, 9, 10, 11, 9] (by decide)⟩

/-! ## Sealer and opener -/

/-- The sample AEAD opens what it sealed. -/
theorem sampleAEAD_roundtrip (dst nonce P A : Bytes) :
    sampleAEAD.Open dst nonce (sampleAEAD.Seal [] nonce P A) A = .ok (dst ++ P) := by
  simp [sampleAEAD]

/-- C2: when the AEAD primitive opens what it sealed (`Open dst nonce (Seal nil nonce P A) A`
is `dst ++ P`), a sealer and an opener built from it and from the same IV of at least
8 bytes derive the same nonce `makeNonce iv pn`, and `Open nil (Seal nil P pn A) pn A`
succeeds with exactly `P`. -/
theorem seal_open_roundtrip (a : AEAD) (iv : Bytes) (hlen : 8 ≤ iv.length)
    (hrt : ∀ dst nonce P A, a.Open dst nonce (a.Seal [] nonce P A) A = .ok (dst ++ P))
    (P A : Bytes) (pn : Nat) :
    ∃ nonce c, makeNonce iv pn = some nonce ∧
      (newSealer a iv).Seal [] P pn A = some c ∧ c = a.Seal [] nonce P A ∧
      (newOpener a iv).Open [] c pn A = some (a.Open [] nonce c A) ∧
      (newOpener a iv).Open [] c pn A = some (.ok P) := by
  obtain ⟨nonce, hn, _⟩ := makeNonce_getElem iv pn hlen
  have hopen : (newOpener a iv).Open [] (a.Seal [] nonce P A) pn A
      = some (a.Open [] nonce (a.Seal [] nonce P A) A) := by
    simp [opener.Open, newOpener, hn]
  refine ⟨nonce, a.Seal [] nonce P A, hn, ?_, rfl, hopen, ?_⟩
  · simp [sealer.Seal, newSealer, hn]
  · rw [hopen, hrt]
    rfl

/-- C2 at the sample AEAD, the IV `1, ..., 12`, plaintext `1, 2, 3`, packet number 5 and
associated data `9`. -/
theorem seal_open_roundtrip_witness :
    8 ≤ [1, 2, 3, 4, 5, 6, 7, 8, 9, 10, 11, 12].length ∧
    (newSealer sampleAEAD [1, 2, 3, 4, 5, 6, 7, 8, 9, 10, 11, 12]).Seal [] [1, 2, 3] 5 [9]
      = some [1, 2, 3, 90] ∧
    (newOpener sampleAEAD [1, 2, 3, 4, 5, 6, 7, 8, 9, 10, 11, 12]).Open [] [1, 2, 3, 90] 5 [9]
      = some (.ok [1, 2, 3]) ∧
    ∃ nonce c, makeNonce [1, 2, 3, 4, 5, 6, 7, 8, 9, 10, 11, 12] 5 = some nonce ∧
      (newSealer sampleAEAD [1, 2, 3, 4, 5, 6, 7, 8, 9, 10, 11, 12]).Seal [] [1, 2, 3] 5 [9]
        = some c ∧
      (newOpener sampleAEAD [1, 2, 3, 4, 5, 6, 7, 8, 9, 10, 11, 12]).Open [] c 5 [9]
        = some (.ok [1, 2, 3]) :=
  ⟨by decide, by rfl, by rfl,
    match seal_open_roundtrip sampleAEAD [1, 2, 3, 4, 5, 6, 7, 8, 9, 10, 11, 12] (by decide)
      sampleAEAD_roundtrip [1, 2, 3] [9] 5 with
    | ⟨nonce, c, h1, h2, _, _, h5⟩ => ⟨nonce, c, h1, h2, h5⟩⟩

/-- C6: with an IV of at least 8 bytes, `opener.Open` returns what the AEAD primitive's
`Open` returns on `(dst, makeNonce iv pn, src, ad)`: it fails exactly when the primitive
rejects, with the primitive's error and no plaintext, and it succeeds exactly when the
primitive accepts, with the primitive's plaintext. -/
theorem opener_Open_eq_primitive (a : AEAD) (iv : Bytes) (hlen : 8 ≤ iv.length)
    (dst src : Bytes) (pn : Nat) (ad : Bytes) :
    ∃ nonce, makeNonce iv pn = some nonce ∧
      (newOpener a iv).Open dst src pn ad = some (a.Open dst nonce src ad) ∧
      (∀ e, (newOpener a iv).Open dst src pn ad = some (.error e)
        ↔ a.Open dst nonce src ad = .error e) ∧
      (∀ p, (newOpener a iv).Open dst src pn ad = some (.ok p)
        ↔ a.Open dst nonce src ad = .ok p) := by
  obtain ⟨nonce, hn, _⟩ := makeNonce_getElem iv pn hlen
  have hopen : (newOpener a iv).Open dst src pn ad = some (a.Open dst nonce src ad) := by
    simp [opener.Open, newOpener, hn]
  refine ⟨nonce, hn, hopen, ?_, ?_⟩
  · intro e
    rw [hopen]
    exact ⟨fun h => Option.some.inj h, fun h => by rw [h]⟩
  · intro p
    rw [hopen]
    exact ⟨fun h => Option.some.inj h, fun h => by rw [h]⟩

/-- C6 at the sample AEAD: a ciphertext with a wrong tag and a ciphertext shorter than the
tag are rejected with the primitive's error, a ciphertext with the right tag is opened. -/
theorem opener_Open_eq_primitive_witness :
    8 ≤ [1, 2, 3, 4, 5, 6, 7, 8, 9, 10, 11, 12].length ∧
    (newOpener sampleAEAD [1, 2, 3, 4, 5, 6, 7, 8, 9, 10, 11, 12]).Open [7] [1, 2, 3, 91] 5 [9]
      = some (.error (Error.other "cipher: message authentication failed")) ∧
    (newOpener sampleAEAD [1, 2, 3, 4, 5, 6, 7, 8, 9, 10, 11, 12]).Open [7] [] 5 [9]
      = some (.error (Error.other "cipher: message authentication failed")) ∧
    (newOpener sampleAEAD [1, 2, 3, 4, 5, 6, 7, 8, 9, 10, 11, 12]).Open [7] [1, 2, 3, 90] 5 [9]
      = some (.ok [7, 1, 2, 3]) ∧
    ∃ nonce, makeNonce [1, 2, 3, 4, 5, 6, 7, 8, 9, 10, 11, 12] 5 = some nonce ∧
      (newOpener sampleAEAD [1, 2, 3, 4, 5, 6, 7, 8, 9, 10, 11, 12]).Open [7] [1, 2, 3, 91] 5 [9]
        = some (sampleAEAD.Open [7] nonce [1, 2, 3, 91] [9]) :=
  ⟨by decide, by rfl, by rfl, by rfl,
    match opener_Open_eq_primitive sampleAEAD [1, 2, 3, 4, 5, 6, 7, 8, 9, 10, 11, 12]
      (by decide) [7] [1, 2, 3, 91] 5 [9] with
    | ⟨nonce, h1, h2, _⟩ => ⟨nonce, h1, h2⟩⟩

/-! ## Header dispatch -/

/-- Reading a byte that is there and unreading it leaves the reader at its position, with
`prevRune` reset. -/
theorem ReadByte_UnreadByte (b : Reader) (t : Nat) (ht : b.s[b.i]? = some t) :
    b.ReadByte.1 = .ok t ∧ b.ReadByte.2.UnreadByte.2 = { b with prevRune := -1 } := by
  simp [Reader.ReadByte, Reader.UnreadByte, ht]

/-- At the end of the slice `ReadByte` returns `io.EOF` and does not move. -/
theorem ReadByte_EOF (b : Reader) (hempty : b.s.length ≤ b.i) :
    b.ReadByte = (.error Error.EOF, { b with prevRune := -1 }) := by
  have h : b.s[b.i]? = none := List.getElem?_eq_none hempty
  simp [Reader.ReadByte, h]

theorem ParseHeaderSentByServer_eq (H : Helpers) (b : Reader) (t : Nat)
    (ht : b.s[b.i]? = some t) :
    ParseHeaderSentByServer H b
      = parsePacketHeader H { b with prevRune := -1 } Perspective.PerspectiveServer
          (if t &&& 0x80 > 0 then false else decide (t &&& 0x30 ≠ 0x30)) := by
  simp [ParseHeaderSentByServer, Reader.ReadByte, Reader.UnreadByte, ht]

theorem ParseHeaderSentByClient_eq (H : Helpers) (b : Reader) (t : Nat)
    (ht : b.s[b.i]? = some t) :
    ParseHeaderSentByClient H b
      = parsePacketHeader H { b with prevRune := -1 } Perspective.PerspectiveClient
          (decide (t &&& 0x88 = 0x8)) := by
  simp [ParseHeaderSentByClient, Reader.ReadByte, Reader.UnreadByte, ht]

/-- Only the low eight bits of a number meet a one-byte mask. -/
theorem and_mask_mod (t m : Nat) (hm : 255 &&& m = m) : t &&& m = (t % 256) &&& m := by
  have h := Nat.and_pow_two_sub_one_eq_mod t 8
  norm_num at h
  rw [← h, Nat.and_assoc, hm]

/-- C3: when the first unread byte is `t`, `ParseHeaderSentByServer` runs the Public Header
parser if and only if `t AND 0x80 = 0` and `t AND 0x30 != 0x30`, and the IETF parser
otherwise; `0x00` is legacy and `0xC0` is modern. -/
theorem ParseHeaderSentByServer_selects (H : Helpers) (b : Reader) (t : Nat)
    (ht : b.s[b.i]? = some t) :
    ParseHeaderSentByServer H b
      = parsePacketHeader H { b with prevRune := -1 } Perspective.PerspectiveServer
          (decide (t &&& 0x80 = 0 ∧ t &&& 0x30 ≠ 0x30)) ∧
    ((t &&& 0x80 = 0 ∧ t &&& 0x30 ≠ 0x30) →
      ParseHeaderSentByServer H b =
        match H.parsePublicHeader { b with prevRune := -1 } Perspective.PerspectiveServer with
        | (.error err, b1) => (.error err, b1)
        | (.ok hdr, b1) => (.ok { hdr with IsPublicHeader := true }, b1)) ∧
    (¬ (t &&& 0x80 = 0 ∧ t &&& 0x30 ≠ 0x30) →
      ParseHeaderSentByServer H b = H.parseHeader { b with prevRune := -1 }) ∧
    decide ((0x00 : Nat) &&& 0x80 = 0 ∧ (0x00 : Nat) &&& 0x30 ≠ 0x30) = true ∧
    decide ((0xC0 : Nat) &&& 0x80 = 0 ∧ (0xC0 : Nat) &&& 0x30 ≠ 0x30) = false := by
  have hsel : (if t &&& 0x80 > 0 then false else decide (t &&& 0x30 ≠ 0x30))
      = decide (t &&& 0x80 = 0 ∧ t &&& 0x30 ≠ 0x30) := by
    by_cases h : t &&& 0x80 = 0
    · simp [h]
    · have hpos : t &&& 0x80 > 0 := Nat.pos_of_ne_zero h
      simp [h, hpos]
  have heq := ParseHeaderSentByServer_eq H b t ht
  rw [hsel] at heq
  refine ⟨heq, ?_, ?_, by decide, by decide⟩
  · intro hc
    rw [heq, decide_eq_true hc]
    rfl
  · intro hc
    rw [heq, decide_eq_false hc]
    rfl

/-- C3 on the buffers `00` and `C0` with the sample helpers: the first is parsed by the
Public Header parser (and flagged), the second by the IETF parser. -/
theorem ParseHeaderSentByServer_selects_witness :
    (NewReader [0x00]).s[(NewReader [0x00]).i]? = some 0x00 ∧
    ParseHeaderSentByServer sampleHelpers (NewReader [0x00])
      = (.ok { zeroHeader with IsPublicHeader := true }, { s := [0x00], i := 1, prevRune := -1 }) ∧
    ParseHeaderSentByServer sampleHelpers (NewReader [0xC0])
      = (.ok { zeroHeader with IsLongHeader := true }, { s := [0xC0], i := 1, prevRune := -1 }) ∧
    ParseHeaderSentByServer sampleHelpers (NewReader [0x00])
      = parsePacketHeader sampleHelpers { NewReader [0x00] with prevRune := -1 }
          Perspective.PerspectiveServer true ∧
    ParseHeaderSentByServer sampleHelpers (NewReader [0xC0])
      = sampleHelpers.parseHeader { NewReader [0xC0] with prevRune := -1 } :=
  ⟨rfl, rfl, rfl,
    (ParseHeaderSentByServer_selects sampleHelpers (NewReader [0x00]) 0x00 rfl).1,
    (ParseHeaderSentByServer_selects sampleHelpers (NewReader [0xC0]) 0xC0 rfl).2.2.1
      (by decide)⟩

/-- C4: when the first unread byte is `t`, `ParseHeaderSentByClient` runs the Public Header
parser if and only if `t AND 0x88 = 0x08`, that is when bit 0x80 is clear and bit 0x08 is
set, and the IETF parser for every other bit pattern; `0x08` is legacy and `0xC0` is
modern. -/
theorem ParseHeaderSentByClient_selects (H : Helpers) (b : Reader) (t : Nat)
    (ht : b.s[b.i]? = some t) :
    ParseHeaderSentByClient H b
      = parsePacketHeader H { b with prevRune := -1 } Perspective.PerspectiveClient
          (decide (t &&& 0x88 = 0x08)) ∧
    (t &&& 0x88 = 0x08 →
      ParseHeaderSentByClient H b =
        match H.parsePublicHeader { b with prevRune := -1 } Perspective.PerspectiveClient with
        | (.error err, b1) => (.error err, b1)
        | (.ok hdr, b1) => (.ok { hdr with IsPublicHeader := true }, b1)) ∧
    (¬ (t &&& 0x88 = 0x08) →
      ParseHeaderSentByClient H b = H.parseHeader { b with prevRune := -1 }) ∧
    (t &&& 0x88 = 0x08 ↔ (t &&& 0x80 = 0 ∧ t &&& 0x08 = 0x08)) ∧
    decide ((0x08 : Nat) &&& 0x88 = 0x08) = true ∧
    decide ((0xC0 : Nat) &&& 0x88 = 0x08) = false := by
  have heq := ParseHeaderSentByClient_eq H b t ht
  refine ⟨heq, ?_, ?_, ?_, by decide, by decide⟩
  · intro hc
    rw [heq, decide_eq_true hc]
    rfl
  · intro hc
    rw [heq, decide_eq_false hc]
    rfl
  · rw [and_mask_mod t 0x88 (by decide), and_mask_mod t 0x80 (by decide),
      and_mask_mod t 0x08 (by decide)]
    have hr : t % 256 < 256 := Nat.mod_lt _ (by norm_num)
    generalize t % 256 = r at hr
    interval_cases r <;> decide

/-- C4 on the buffers `08` and `C0` with the sample helpers. -/
theorem ParseHeaderSentByClient_selects_witness :
    (NewReader [0x08]).s[(NewReader [0x08]).i]? = some 0x08 ∧
    ParseHeaderSentByClient sampleHelpers (NewReader [0x08])
      = (.ok { zeroHeader with IsPublicHeader := true }, { s := [0x08], i := 1, prevRune := -1 }) ∧
    ParseHeaderSentByClient sampleHelpers (NewReader [0xC0])
      = (.ok { zeroHeader with IsLongHeader := true }, { s := [0xC0], i := 1, prevRune := -1 }) ∧
    ParseHeaderSentByClient sampleHelpers (NewReader [0x08])
      = parsePacketHeader sampleHelpers { NewReader [0x08] with prevRune := -1 }
          Perspective.PerspectiveClient true ∧
    ParseHeaderSentByClient sampleHelpers (NewReader [0xC0])
      = sampleHelpers.parseHeader { NewReader [0xC0] with prevRune := -1 } :=
  ⟨rfl, rfl, rfl,
    (ParseHeaderSentByClient_selects sampleHelpers (NewReader [0x08]) 0x08 rfl).1,
    (ParseHeaderSentByClient_selects sampleHelpers (NewReader [0xC0]) 0xC0 rfl).2.2.1
      (by decide)⟩

/-- C9: on a reader with no unread byte, `ParseHeaderSentByServer` and
`ParseHeaderSentByClient` both fail with the reader's end-of-input error `io.EOF` (the
buffer is too short), return no header, and leave the reader where it was; the result is
the same whatever the format-specific parsers are, so neither is run. -/
theorem ParseHeader_empty_buffer (H : Helpers) (b : Reader) (hempty : b.s.length ≤ b.i) :
    ParseHeaderSentByServer H b = (.error Error.EOF, { b with prevRune := -1 }) ∧
    ParseHeaderSentByClient H b = (.error Error.EOF, { b with prevRune := -1 }) := by
  have h := ReadByte_EOF b hempty
  constructor
  · simp [ParseHeaderSentByServer, h]
  · simp [ParseHeaderSentByClient, h]

/-- C9 on the empty buffer, and on a buffer that has been read to its end. -/
theorem ParseHeader_empty_buffer_witness :
    (NewReader []).s.length ≤ (NewReader []).i ∧
    ParseHeaderSentByServer sampleHelpers (NewReader [])
      = (.error Error.EOF, { s := [], i := 0, prevRune := -1 }) ∧
    ParseHeaderSentByClient sampleHelpers (NewReader [])
      = (.error Error.EOF, { s := [], i := 0, prevRune := -1 }) ∧
    ParseHeaderSentByServer sampleHelpers { s := [0x08], i := 1, prevRune := -1 }
      = (.error Error.EOF, { s := [0x08], i := 1, prevRune := -1 }) :=
  ⟨by decide, (ParseHeader_empty_buffer sampleHelpers (NewReader []) (by decide)).1,
    (ParseHeader_empty_buffer sampleHelpers (NewReader []) (by decide)).2,
    (ParseHeader_empty_buffer sampleHelpers { s := [0x08], i := 1, prevRune := -1 }
      (by decide)).1⟩

/-- C10: `ReadPacketNumber` returns exactly what `readPublicHeaderPacketNumber` returns on
the same reader and flag byte when the version does not use TLS, and exactly what
`readPacketNumber` returns when it does: packet number, length, error and reader are those
of the one decoder that ran. -/
theorem ReadPacketNumber_delegates (H : Helpers) (b : Reader) (flagByte version : Nat) :
    ReadPacketNumber H b flagByte version
      = if H.UsesTLS version = true then H.readPacketNumber b flagByte
        else H.readPublicHeaderPacketNumber b flagByte := by
  unfold ReadPacketNumber
  cases H.UsesTLS version <;> rfl

/-- `Write` and `GetLength` take the same branch for the same version: the Public Header
serialiser (on the header flagged as Public Header) and length function when the version
does not use TLS, the IETF ones when it does. -/
theorem Write_GetLength_same_branch (H : Helpers) (h : Header) (b : Bytes) (pn pnLen : Nat)
    (pers : Perspective) (version : Nat) :
    (H.UsesTLS version = false ∧
      Header.Write H h b pn pnLen pers version
        = H.writePublicHeader { h with IsPublicHeader := true } b pn pnLen pers ∧
      Header.GetLength H h pnLen pers version = H.getPublicHeaderLength h pnLen pers) ∨
    (H.UsesTLS version = true ∧
      Header.Write H h b pn pnLen pers version = H.writeHeader h b pn pnLen ∧
      Header.GetLength H h pnLen pers version = (H.getHeaderLength h pnLen, none)) := by
  unfold Header.Write Header.GetLength
  cases H.UsesTLS version
  · exact Or.inl ⟨rfl, rfl, rfl⟩
  · exact Or.inr ⟨rfl, rfl, rfl⟩

/-! ## Sealer output and the domain of `makeNonce` -/

/-- C11: when the AEAD primitive's `Seal` appends `len(P) + Overhead()` bytes to `dst`,
`sealer.Seal dst P pn A` (IV of at least 8 bytes) returns a slice that has `dst` as a
prefix and length `len(dst) + len(P) + sealer.Overhead()`; `sealer.Overhead()` is the
primitive's `Overhead()`, a value of the sealer alone. -/
theorem sealer_Seal_appends (a : AEAD) (iv : Bytes) (hlen : 8 ≤ iv.length)
    (happ : ∀ dst nonce P A, ∃ tail, a.Seal dst nonce P A = dst ++ tail ∧
      tail.length = P.length + a.Overhead)
    (dst P : Bytes) (pn : Nat) (A : Bytes) :
    ∃ c, (newSealer a iv).Seal dst P pn A = some c ∧ dst <+: c ∧
      c.length = dst.length + P.length + (newSealer a iv).Overhead ∧
      (newSealer a iv).Overhead = a.Overhead := by
  obtain ⟨nonce, hn, _⟩ := makeNonce_getElem iv pn hlen
  obtain ⟨tail, htail, htl⟩ := happ dst nonce P A
  refine ⟨a.Seal dst nonce P A, ?_, ?_, ?_, rfl⟩
  · simp [sealer.Seal, newSealer, hn]
  · rw [htail]
    exact List.prefix_append dst tail
  · rw [htail, List.length_append, htl]
    simp only [sealer.Overhead, newSealer]
    omega

/-- The sample AEAD appends the text and one tag byte to `dst`. -/
theorem sampleAEAD_appends (dst nonce P A : Bytes) :
    ∃ tail, sampleAEAD.Seal dst nonce P A = dst ++ tail ∧
      tail.length = P.length + sampleAEAD.Overhead :=
  ⟨P ++ [sampleTag nonce P A], by simp [sampleAEAD], by simp [sampleAEAD]⟩

/-- C11 at the sample AEAD: sealing `1, 2, 3` after the two bytes `7, 7` gives six bytes
that start with `7, 7`. -/
theorem sealer_Seal_appends_witness :
    8 ≤ [1, 2, 3, 4, 5, 6, 7, 8, 9, 10, 11, 12].length ∧
    (newSealer sampleAEAD [1, 2, 3, 4, 5, 6, 7, 8, 9, 10, 11, 12]).Seal [7, 7] [1, 2, 3] 5 [9]
      = some [7, 7, 1, 2, 3, 90] ∧
    (newSealer sampleAEAD [1, 2, 3, 4, 5, 6, 7, 8, 9, 10, 11, 12]).Overhead = 1 ∧
    ∃ c, (newSealer sampleAEAD [1, 2, 3, 4, 5, 6, 7, 8, 9, 10, 11, 12]).Seal [7, 7] [1, 2, 3] 5 [9]
        = some c ∧ [7, 7] <+: c ∧
      c.length = 2 + 3 + (newSealer sampleAEAD [1, 2, 3, 4, 5, 6, 7, 8, 9, 10, 11, 12]).Overhead :=
  ⟨by decide, by rfl, rfl,
    match sealer_Seal_appends sampleAEAD [1, 2, 3, 4, 5, 6, 7, 8, 9, 10, 11, 12] (by decide)
      sampleAEAD_appends [7, 7] [1, 2, 3] 5 [9] with
    | ⟨c, h1, h2, h3, _⟩ => ⟨c, h1, h2, h3⟩⟩

/-- For an IV of fewer than 8 bytes the slice expression of `makeNonce` panics. -/
theorem makeNonce_short (iv : Bytes) (pn : Nat) (hlen : iv.length < 8) :
    makeNonce iv pn = none := by
  simp [makeNonce, hlen]

/-- C17: `makeNonce` returns exactly for IVs of at least 8 bytes. With `len(iv) >= 8` no
slice bound or index is out of range and a nonce of `len(iv)` bytes is returned; with
`len(iv) < 8` (the empty IV included) the call panics, and so do `Seal` and `Open` of a
sealer or opener holding such an IV: they do not return an error. -/
theorem makeNonce_defined_iff (iv : Bytes) (pn : Nat) :
    ((makeNonce iv pn).isSome = true ↔ 8 ≤ iv.length) ∧
    (8 ≤ iv.length → ∃ nonce, makeNonce iv pn = some nonce ∧ nonce.length = iv.length) ∧
    (iv.length < 8 → makeNonce iv pn = none ∧
      ∀ (a : AEAD) (dst src ad : Bytes),
        (newSealer a iv).Seal dst src pn ad = none ∧
        (newOpener a iv).Open dst src pn ad = none) := by
  have hge : 8 ≤ iv.length → ∃ nonce, makeNonce iv pn = some nonce ∧
      nonce.length = iv.length := by
    intro h
    obtain ⟨nonce, hn, hl, _⟩ := makeNonce_getElem iv pn h
    exact ⟨nonce, hn, hl⟩
  refine ⟨⟨?_, ?_⟩, hge, ?_⟩
  · intro hsome
    by_contra hlt
    rw [makeNonce_short iv pn (by omega)] at hsome
    exact Bool.false_ne_true hsome
  · intro h
    obtain ⟨nonce, hn, _⟩ := hge h
    rw [hn]
    rfl
  · intro hlt
    have hnone := makeNonce_short iv pn hlt
    refine ⟨hnone, ?_⟩
    intro a dst src ad
    constructor
    · simp [sealer.Seal, newSealer, hnone]
    · simp [opener.Open, newOpener, hnone]

/-- C17 at the empty IV, at an IV of 7 bytes and at an IV of 8 bytes. -/
theorem makeNonce_defined_iff_witness :
    makeNonce [] 1 = none ∧
    makeNonce [1, 2, 3, 4, 5, 6, 7] 1 = none ∧
    (newSealer sampleAEAD [1, 2, 3, 4, 5, 6, 7]).Seal [] [1, 2, 3] 1 [9] = none ∧
    (newOpener sampleAEAD [1, 2, 3, 4, 5, 6, 7]).Open [] [1, 2, 3, 90] 1 [9] = none ∧
    makeNonce [1, 2, 3, 4, 5, 6, 7, 8] 1 = some [1, 2, 3, 4, 5, 6, 7, 9] :=
  ⟨((makeNonce_defined_iff [] 1).2.2 (by decide)).1,
    ((makeNonce_defined_iff [1, 2, 3, 4, 5, 6, 7] 1).2.2 (by decide)).1,
    (((makeNonce_defined_iff [1, 2, 3, 4, 5, 6, 7] 1).2.2 (by decide)).2
      sampleAEAD [] [1, 2, 3] [9]).1,
    (((makeNonce_defined_iff [1, 2, 3, 4, 5, 6, 7] 1).2.2 (by decide)).2
      sampleAEAD [] [1, 2, 3, 90] [9]).2,
    by decide⟩

/-! ## Peeking, perspective and the recorded format -/

/-- The selection made by `ParseHeaderSentByServer`, as one condition on the type byte. -/
theorem server_rule_eq (t : Nat) :
    (if t &&& 0x80 > 0 then false else decide (t &&& 0x30 ≠ 0x30))
      = decide (t &&& 0x80 = 0 ∧ t &&& 0x30 ≠ 0x30) := by
  by_cases h : t &&& 0x80 = 0
  · simp [h]
  · have hpos : t &&& 0x80 > 0 := Nat.pos_of_ne_zero h
    simp [h, hpos]

/-- C13: when a first byte `t` is there, the read of the type byte is undone: the reader
handed to the format-specific parser has the slice and the position it had at entry (its
rune bookkeeping `prevRune` is reset by the two calls), and the result of either entry
point is `parsePacketHeader` on that reader with the classification of `t`. For a reader
with no pending rune (`prevRune = -1`, as after `bytes.NewReader` or any byte read) the
reader handed on is the reader at entry itself. -/
theorem ParseHeader_peeks (H : Helpers) (b : Reader) (t : Nat) (ht : b.s[b.i]? = some t) :
    b.ReadByte.1 = .ok t ∧
    b.ReadByte.2.UnreadByte.1 = none ∧
    b.ReadByte.2.UnreadByte.2.s = b.s ∧
    b.ReadByte.2.UnreadByte.2.i = b.i ∧
    ParseHeaderSentByServer H b
      = parsePacketHeader H b.ReadByte.2.UnreadByte.2 Perspective.PerspectiveServer
          (decide (t &&& 0x80 = 0 ∧ t &&& 0x30 ≠ 0x30)) ∧
    ParseHeaderSentByClient H b
      = parsePacketHeader H b.ReadByte.2.UnreadByte.2 Perspective.PerspectiveClient
          (decide (t &&& 0x88 = 0x08)) ∧
    (b.prevRune = -1 →
      b.ReadByte.2.UnreadByte.2 = b ∧
      ParseHeaderSentByServer H b
        = parsePacketHeader H b Perspective.PerspectiveServer
            (decide (t &&& 0x80 = 0 ∧ t &&& 0x30 ≠ 0x30)) ∧
      ParseHeaderSentByClient H b
        = parsePacketHeader H b Perspective.PerspectiveClient
            (decide (t &&& 0x88 = 0x08))) := by
  obtain ⟨hread, hunread⟩ := ReadByte_UnreadByte b t ht
  have hs := ParseHeaderSentByServer_eq H b t ht
  rw [server_rule_eq] at hs
  have hc := ParseHeaderSentByClient_eq H b t ht
  have herr : b.ReadByte.2.UnreadByte.1 = none := by
    simp [Reader.ReadByte, Reader.UnreadByte, ht]
  refine ⟨hread, herr, ?_, ?_, ?_, ?_, ?_⟩
  · rw [hunread]
  · rw [hunread]
  · rw [hunread]
    exact hs
  · rw [hunread]
    exact hc
  · intro hprev
    cases b with
    | mk s i p =>
      simp only at hprev
      subst hprev
      exact ⟨hunread, hs, hc⟩

/-- C13 on the buffer `08 01 02` with the sample helpers, at the start of the buffer. -/
theorem ParseHeader_peeks_witness :
    (NewReader [0x08, 1, 2]).s[(NewReader [0x08, 1, 2]).i]? = some 0x08 ∧
    (NewReader [0x08, 1, 2]).ReadByte.2.UnreadByte.2 = NewReader [0x08, 1, 2] ∧
    ParseHeaderSentByServer sampleHelpers (NewReader [0x08, 1, 2])
      = parsePacketHeader sampleHelpers (NewReader [0x08, 1, 2])
          Perspective.PerspectiveServer true ∧
    ParseHeaderSentByClient sampleHelpers (NewReader [0x08, 1, 2])
      = parsePacketHeader sampleHelpers (NewReader [0x08, 1, 2])
          Perspective.PerspectiveClient true ∧
    ParseHeaderSentByClient sampleHelpers (NewReader [0x08, 1, 2])
      = (.ok { zeroHeader with IsPublicHeader := true },
          { s := [0x08, 1, 2], i := 1, prevRune := -1 }) :=
  ⟨rfl,
    ((ParseHeader_peeks sampleHelpers (NewReader [0x08, 1, 2]) 0x08 rfl).2.2.2.2.2.2 rfl).1,
    ((ParseHeader_peeks sampleHelpers (NewReader [0x08, 1, 2]) 0x08 rfl).2.2.2.2.2.2 rfl).2.1,
    ((ParseHeader_peeks sampleHelpers (NewReader [0x08, 1, 2]) 0x08 rfl).2.2.2.2.2.2 rfl).2.2,
    rfl⟩

/-- C14: the two entry points classify differently. A buffer starting with `0x00` goes to
the Public Header parser when sent by the server and to the IETF parser when sent by the
client; a buffer starting with `0x38` goes to the Public Header parser when sent by the
client and to the IETF parser when sent by the server. On the sample helpers the results
differ in both cases. -/
theorem classification_depends_on_perspective (H : Helpers) (rest : Bytes) :
    ParseHeaderSentByServer H (NewReader (0x00 :: rest))
      = parsePacketHeader H (NewReader (0x00 :: rest)) Perspective.PerspectiveServer true ∧
    ParseHeaderSentByClient H (NewReader (0x00 :: rest))
      = parsePacketHeader H (NewReader (0x00 :: rest)) Perspective.PerspectiveClient false ∧
    ParseHeaderSentByClient H (NewReader (0x38 :: rest))
      = parsePacketHeader H (NewReader (0x38 :: rest)) Perspective.PerspectiveClient true ∧
    ParseHeaderSentByServer H (NewReader (0x38 :: rest))
      = parsePacketHeader H (NewReader (0x38 :: rest)) Perspective.PerspectiveServer false ∧
    ParseHeaderSentByServer sampleHelpers (NewReader [0x00])
      ≠ ParseHeaderSentByClient sampleHelpers (NewReader [0x00]) ∧
    ParseHeaderSentByClient sampleHelpers (NewReader [0x38])
      ≠ ParseHeaderSentByServer sampleHelpers (NewReader [0x38]) := by
  have h0 : (NewReader (0x00 :: rest)).s[(NewReader (0x00 :: rest)).i]? = some 0x00 := by
    simp [NewReader]
  have h38 : (NewReader (0x38 :: rest)).s[(NewReader (0x38 :: rest)).i]? = some 0x38 := by
    simp [NewReader]
  refine ⟨?_, ?_, ?_, ?_, ?_, ?_⟩
  · exact ParseHeaderSentByServer_eq H _ _ h0
  · exact ParseHeaderSentByClient_eq H _ _ h0
  · exact ParseHeaderSentByClient_eq H _ _ h38
  · exact ParseHeaderSentByServer_eq H _ _ h38
  · intro h
    have h1 := congrArg (fun r => (r.1.toOption.map Header.IsPublicHeader)) h
    exact absurd h1 (by decide)
  · intro h
    have h1 := congrArg (fun r => (r.1.toOption.map Header.IsPublicHeader)) h
    exact absurd h1 (by decide)

/-- C15: `parsePacketHeader` records the format it selected. Called with
`isPublicHeader = true`, a header returned by the Public Header parser comes back with
`IsPublicHeader = true` (and the same other fields), so `Log` uses the Public Header
logger on it; an error of the Public Header parser comes back unchanged, with no header.
Called with `isPublicHeader = false`, the result is that of `parseHeader`. -/
theorem parsePacketHeader_records_format (H : Helpers) (b : Reader) (sentBy : Perspective) :
    (∀ hdr b1, H.parsePublicHeader b sentBy = (.ok hdr, b1) →
      parsePacketHeader H b sentBy true = (.ok { hdr with IsPublicHeader := true }, b1) ∧
      ({ hdr with IsPublicHeader := true } : Header).IsPublicHeader = true ∧
      ∀ logger, Header.Log H { hdr with IsPublicHeader := true } logger
        = H.logPublicHeader { hdr with IsPublicHeader := true } logger) ∧
    (∀ err b1, H.parsePublicHeader b sentBy = (.error err, b1) →
      parsePacketHeader H b sentBy true = (.error err, b1)) ∧
    parsePacketHeader H b sentBy false = H.parseHeader b := by
  refine ⟨?_, ?_, ?_⟩
  · intro hdr b1 h
    refine ⟨?_, rfl, ?_⟩
    · simp [parsePacketHeader, h]
    · intro logger
      simp [Header.Log]
  · intro err b1 h
    simp [parsePacketHeader, h]
  · simp [parsePacketHeader]

/-- C15 with the sample helpers: on the buffer `09` the Public Header parser succeeds and
the header is flagged and logged as Public Header; on the empty buffer its `io.EOF` comes
back unchanged. -/
theorem parsePacketHeader_records_format_witness :
    parsePacketHeader sampleHelpers (NewReader [0x09]) Perspective.PerspectiveClient true
      = (.ok { zeroHeader with VersionFlag := true, IsPublicHeader := true },
          { s := [0x09], i := 1, prevRune := -1 }) ∧
    Header.Log sampleHelpers { zeroHeader with VersionFlag := true, IsPublicHeader := true } []
      = ["Public Header"] ∧
    parsePacketHeader sampleHelpers (NewReader []) Perspective.PerspectiveClient true
      = (.error Error.EOF, NewReader []) ∧
    parsePacketHeader sampleHelpers (NewReader [0x09]) Perspective.PerspectiveClient false
      = sampleHelpers.parseHeader (NewReader [0x09]) :=
  ⟨((parsePacketHeader_records_format sampleHelpers (NewReader [0x09])
      Perspective.PerspectiveClient).1 _ _ rfl).1,
    ((parsePacketHeader_records_format sampleHelpers (NewReader [0x09])
      Perspective.PerspectiveClient).1 _ _ rfl).2.2 [],
    (parsePacketHeader_records_format sampleHelpers (NewReader [])
      Perspective.PerspectiveClient).2.1 _ _ rfl,
    (parsePacketHeader_records_format sampleHelpers (NewReader [0x09])
      Perspective.PerspectiveClient).2.2⟩

/-! ## The header flag after `Write` -/

/-- C18: `Write` sets `IsPublicHeader` before it serialises. For a version that does not
use TLS the Public Header serialiser receives the header with the flag already true, so
(the serialiser not assigning the flag) the header has `IsPublicHeader = true` after
`Write`, whether the serialiser returned an error or not. For a version that uses TLS
`Write` hands the header to the IETF serialiser as it is, so (that serialiser not
assigning the flag) the flag after `Write` is the flag before: a flag that was true stays
true. -/
theorem Write_sets_flag_before_serialising (H : Helpers)
    (hpub : ∀ h b pn pnLen pers,
      (H.writePublicHeader h b pn pnLen pers).2.1.IsPublicHeader = h.IsPublicHeader)
    (hietf : ∀ h b pn pnLen,
      (H.writeHeader h b pn pnLen).2.1.IsPublicHeader = h.IsPublicHeader)
    (h : Header) (b : Bytes) (pn pnLen : Nat) (pers : Perspective) (version : Nat) :
    (H.UsesTLS version = false →
      Header.Write H h b pn pnLen pers version
        = H.writePublicHeader { h with IsPublicHeader := true } b pn pnLen pers ∧
      (Header.Write H h b pn pnLen pers version).2.1.IsPublicHeader = true) ∧
    (H.UsesTLS version = true →
      Header.Write H h b pn pnLen pers version = H.writeHeader h b pn pnLen ∧
      (Header.Write H h b pn pnLen pers version).2.1.IsPublicHeader = h.IsPublicHeader) := by
  constructor
  · intro hv
    have hw : Header.Write H h b pn pnLen pers version
        = H.writePublicHeader { h with IsPublicHeader := true } b pn pnLen pers := by
      simp [Header.Write, hv]
    refine ⟨hw, ?_⟩
    rw [hw, hpub]
  · intro hv
    have hw : Header.Write H h b pn pnLen pers version = H.writeHeader h b pn pnLen := by
      simp [Header.Write, hv]
    refine ⟨hw, ?_⟩
    rw [hw, hietf]

/-- C18 with serialisers that fail and with serialisers that succeed: for version 39 (no
TLS) the flag is true after `Write` in both cases; for version 101 (TLS) a flag that was
true is still true and a flag that was false is still false. -/
theorem Write_sets_flag_before_serialising_witness :
    Header.Write rejectingHelpers zeroHeader [] 1 1 Perspective.PerspectiveClient 39
      = (some (Error.other "PublicHeader: invalid"),
          { zeroHeader with IsPublicHeader := true }, []) ∧
    Header.Write sampleHelpers zeroHeader [] 1 1 Perspective.PerspectiveClient 39
      = (none, { zeroHeader with IsPublicHeader := true }, [0x08, 1]) ∧
    (Header.Write rejectingHelpers zeroHeader [] 1 1
      Perspective.PerspectiveClient 39).2.1.IsPublicHeader = true ∧
    (Header.Write sampleHelpers zeroHeader [] 1 1
      Perspective.PerspectiveClient 39).2.1.IsPublicHeader = true ∧
    (Header.Write sampleHelpers { zeroHeader with IsPublicHeader := true } [] 1 1
      Perspective.PerspectiveClient 101).2.1.IsPublicHeader = true ∧
    (Header.Write sampleHelpers zeroHeader [] 1 1
      Perspective.PerspectiveClient 101).2.1.IsPublicHeader = false :=
  ⟨rfl, rfl,
    ((Write_sets_flag_before_serialising rejectingHelpers (fun _ _ _ _ _ => rfl)
      (fun _ _ _ _ => rfl) zeroHeader [] 1 1 Perspective.PerspectiveClient 39).1 rfl).2,
    ((Write_sets_flag_before_serialising sampleHelpers (fun _ _ _ _ _ => rfl)
      (fun _ _ _ _ => rfl) zeroHeader [] 1 1 Perspective.PerspectiveClient 39).1 rfl).2,
    ((Write_sets_flag_before_serialising sampleHelpers (fun _ _ _ _ _ => rfl)
      (fun _ _ _ _ => rfl) { zeroHeader with IsPublicHeader := true } [] 1 1
      Perspective.PerspectiveClient 101).2 rfl).2,
    ((Write_sets_flag_before_serialising sampleHelpers (fun _ _ _ _ _ => rfl)
      (fun _ _ _ _ => rfl) zeroHeader [] 1 1 Perspective.PerspectiveClient 101).2 rfl).2⟩

/-! ## Single-bit mutations -/

theorem sum_set_add (l : Bytes) : ∀ (i x y : Nat), l[i]? = some x →
    (l.set i y).sum + x = l.sum + y := by
  induction l with
  | nil =>
    intro i x y h
    simp at h
  | cons a l ih =>
    intro i x y h
    cases i with
    | zero =>
      simp only [List.getElem?_cons_zero, Option.some.injEq] at h
      subst h
      simp only [List.set_cons_zero, List.sum_cons]
      omega
    | succ i =>
      simp only [List.getElem?_cons_succ] at h
      have := ih i x y h
      simp only [List.set_cons_succ, List.sum_cons]
      omega

/-- Flipping one of the low eight bits changes the value modulo 256. -/
theorem xor_two_pow_mod_ne (x k : Nat) (hk : k < 8) : (x ^^^ 2 ^ k) % 256 ≠ x % 256 := by
  intro h
  have h1 : ((x ^^^ 2 ^ k) % 2 ^ 8).testBit k = (x % 2 ^ 8).testBit k := by
    show ((x ^^^ 2 ^ k) % 256).testBit k = (x % 256).testBit k
    rw [h]
  rw [Nat.testBit_mod_two_pow, Nat.testBit_mod_two_pow, Nat.testBit_xor,
    Nat.testBit_two_pow_self] at h1
  simp [hk] at h1

theorem xor_two_pow_ne (x k : Nat) : x ^^^ 2 ^ k ≠ x := by
  intro h
  have h1 := congrArg (fun n => Nat.testBit n k) h
  simp only [Nat.testBit_xor, Nat.testBit_two_pow_self] at h1
  simp at h1

/-- A flipped bit changes the sum of the bytes modulo 256. -/
theorem flipBit_sum_ne (l : Bytes) (i k : Nat) (hi : i < l.length) (hk : k < 8) (S : Nat) :
    (S + (flipBit l i k).sum) % 256 ≠ (S + l.sum) % 256 := by
  have hx : l[i]? = some l[i] := List.getElem?_eq_getElem hi
  have hf : flipBit l i k = l.set i (l[i] ^^^ 2 ^ k) := by
    simp [flipBit, hx]
  have hsum := sum_set_add l i l[i] (l[i] ^^^ 2 ^ k) hx
  have hne := xor_two_pow_mod_ne l[i] k hk
  rw [hf]
  omega

theorem flipBit_append_left (l : Bytes) (t i k : Nat) (hi : i < l.length) :
    flipBit (l ++ [t]) i k = flipBit l i k ++ [t] := by
  have hx : l[i]? = some l[i] := List.getElem?_eq_getElem hi
  have hx2 : (l ++ [t])[i]? = some l[i] := by
    rw [List.getElem?_append_left hi, hx]
  simp [flipBit, hx, hx2, List.set_append, hi]

theorem flipBit_append_last (l : Bytes) (t k : Nat) :
    flipBit (l ++ [t]) l.length k = l ++ [t ^^^ 2 ^ k] := by
  have hx2 : (l ++ [t])[l.length]? = some t := by
    simp
  simp [flipBit, hx2, List.set_append]

/-- The sample AEAD rejects every single-bit mutation of what it sealed. -/
theorem sampleAEAD_rejects_flips (nonce P A C' A' : Bytes)
    (hflip : SingleBitFlip (sampleAEAD.Seal [] nonce P A) A C' A') :
    ∃ e, sampleAEAD.Open [] nonce C' A' = .error e := by
  have hseal : sampleAEAD.Seal [] nonce P A = P ++ [sampleTag nonce P A] := by
    simp [sampleAEAD]
  rw [hseal] at hflip
  rcases hflip with ⟨i, k, hi, hk, hC, hA⟩ | ⟨i, k, hi, hk, hC, hA⟩
  · subst hA
    simp only [List.length_append, List.length_singleton] at hi
    by_cases hlt : i < P.length
    · rw [flipBit_append_left P _ i k hlt] at hC
      subst hC
      have hne := flipBit_sum_ne P i k hlt hk (nonce.sum + A'.sum)
      have htag : ¬ sampleTag nonce P A' = sampleTag nonce (flipBit P i k) A' := by
        unfold sampleTag
        omega
      simp [sampleAEAD, htag]
    · have hi2 : i = P.length := by omega
      subst hi2
      rw [flipBit_append_last] at hC
      subst hC
      simp [sampleAEAD, xor_two_pow_ne]
  · subst hC
    subst hA
    have hne := flipBit_sum_ne A i k hi hk (nonce.sum + P.sum)
    have htag : ¬ sampleTag nonce P A = sampleTag nonce P (flipBit A i k) := by
      unfold sampleTag
      omega
    simp [sampleAEAD, htag]

/-! ## Slices that share storage: what a call writes -/

theorem writeAt_length (bs : Bytes) : ∀ (a : Bytes) (p : Nat),
    (writeAt a p bs).length = a.length := by
  induction bs with
  | nil => intro a p; rfl
  | cons b bs ih =>
    intro a p
    simp only [writeAt]
    rw [ih, List.length_set]

/-- Storing from position `p` on leaves every byte outside `[p, p + len(bs))` as it was. -/
theorem writeAt_getElem_out (bs : Bytes) : ∀ (a : Bytes) (p j : Nat),
    j < p ∨ p + bs.length ≤ j → (writeAt a p bs)[j]? = a[j]? := by
  induction bs with
  | nil => intro a p j _; rfl
  | cons b bs ih =>
    intro a p j hj
    simp only [writeAt]
    simp only [List.length_cons] at hj
    rw [ih (a.set p b) (p + 1) j (by omega), List.getElem?_set_ne (by omega)]

/-- Storing within the array puts byte `k` of `bs` at position `p + k`. -/
theorem writeAt_getElem_in (bs : Bytes) : ∀ (a : Bytes) (p k : Nat),
    p + bs.length ≤ a.length → k < bs.length → (writeAt a p bs)[p + k]? = bs[k]? := by
  induction bs with
  | nil =>
    intro a p k _ hk
    simp at hk
  | cons b bs ih =>
    intro a p k hp hk
    simp only [writeAt]
    simp only [List.length_cons] at hp hk
    cases k with
    | zero =>
      rw [writeAt_getElem_out bs _ _ _ (Or.inl (by omega)), Nat.add_zero,
        List.getElem?_set_self (by omega)]
      simp
    | succ k =>
      have h := ih (a.set p b) (p + 1) k (by rw [List.length_set]; omega) (by omega)
      rw [show p + (k + 1) = p + 1 + k by omega, h]
      simp

theorem read_getElem (h : Heap) (s : Slice) (i : Nat) :
    (h.read s)[i]? = if i < s.len then (h.arrays.getD s.arr [])[s.off + i]? else none := by
  simp only [Heap.read, List.getElem?_take, List.getElem?_drop]

theorem read_length (h : Heap) (s : Slice) (hv : h.Valid s) : (h.read s).length = s.len := by
  obtain ⟨_, h2, h3⟩ := hv
  simp only [Heap.read, List.length_take, List.length_drop]
  omega

theorem store_length (h : Heap) (a p : Nat) (bs : Bytes) :
    (h.store a p bs).arrays.length = h.arrays.length := by
  simp [Heap.store]

theorem store_getD (h : Heap) (a p : Nat) (bs : Bytes) (b : Nat) :
    (h.store a p bs).arrays.getD b []
      = if a = b then writeAt (h.arrays.getD a []) p bs else h.arrays.getD b [] := by
  simp only [Heap.store, List.getD_eq_getElem?_getD, List.getElem?_set]
  by_cases hab : a = b
  · subst hab
    by_cases hlt : a < h.arrays.length
    · simp [hlt]
    · have hnone : h.arrays[a]? = none := List.getElem?_eq_none (by omega)
      simp only [hlt, if_true, if_false, hnone, Option.getD_none]
      have hl := writeAt_length bs [] p
      exact (List.eq_nil_of_length_eq_zero hl).symm
  · simp [hab]

/-- A store into array `a` at `[p, p + len(bs))` leaves the bytes of every slice that
shares none of these positions as they were. -/
theorem store_read_frame (h : Heap) (a p : Nat) (bs : Bytes) (s : Slice)
    (hd : a ≠ s.arr ∨ s.off + s.len ≤ p ∨ p + bs.length ≤ s.off) :
    (h.store a p bs).read s = h.read s := by
  apply List.ext_getElem?
  intro i
  rw [read_getElem, read_getElem, store_getD]
  by_cases hi : i < s.len
  · simp only [hi, if_true]
    by_cases hab : a = s.arr
    · simp only [hab, if_true]
      rw [writeAt_getElem_out]
      rcases hd with hd | hd | hd
      · exact absurd hab hd
      · left; omega
      · right; omega
    · simp only [hab, if_false]
  · simp only [hi, if_false]

theorem extend_read (h : Heap) (x : Bytes) (s : Slice) (hs : s.arr < h.arrays.length) :
    ({ arrays := h.arrays ++ [x] } : Heap).read s = h.read s := by
  simp only [Heap.read, List.getD_append _ _ _ _ hs]

/-- An append to `dst` leaves the bytes of a slice that shares no byte with the spare
capacity of `dst` as they were. -/
theorem append_read_frame (h : Heap) (dst : Slice) (bs : Bytes) (s : Slice)
    (hs : s.arr < h.arrays.length) (hd : SpareDisjoint dst s) :
    (h.append dst bs).1.read s = h.read s := by
  unfold Heap.append
  by_cases hc : dst.len + bs.length ≤ dst.cap
  · simp only [hc, if_true]
    apply store_read_frame
    rcases hd with hd | hd | hd
    · exact Or.inl hd
    · right; right; omega
    · right; left; omega
  · simp only [hc, if_false]
    exact extend_read h _ s hs

theorem append_valid (h : Heap) (dst : Slice) (bs : Bytes) (s : Slice) (hv : h.Valid s) :
    (h.append dst bs).1.Valid s := by
  obtain ⟨h1, h2, h3⟩ := hv
  unfold Heap.append
  by_cases hc : dst.len + bs.length ≤ dst.cap
  · simp only [hc, if_true]
    refine ⟨by rw [store_length]; exact h1, h2, ?_⟩
    rw [store_getD]
    by_cases hab : dst.arr = s.arr
    · simp only [hab, if_true]
      rw [writeAt_length]
      exact h3
    · simp only [hab, if_false]
      exact h3
  · simp only [hc, if_false]
    refine ⟨by simp; omega, h2, ?_⟩
    rw [List.getD_append _ _ _ _ h1]
    exact h3

/-- The slice returned by an append holds the bytes of `dst` followed by `bs`. -/
theorem append_read_result (h : Heap) (dst : Slice) (bs : Bytes) (hv : h.Valid dst) :
    (h.append dst bs).1.read (h.append dst bs).2 = h.read dst ++ bs := by
  obtain ⟨h1, h2, h3⟩ := hv
  have hlen : (h.read dst).length = dst.len := read_length h dst ⟨h1, h2, h3⟩
  unfold Heap.append
  by_cases hc : dst.len + bs.length ≤ dst.cap
  · simp only [hc, if_true]
    apply List.ext_getElem?
    intro i
    rw [read_getElem, store_getD]
    simp only [if_true]
    by_cases hi : i < dst.len
    · have hi2 : i < dst.len + bs.length := by omega
      simp only [hi2, if_true]
      rw [writeAt_getElem_out _ _ _ _ (Or.inl (by omega)),
        List.getElem?_append_left (by omega), read_getElem]
      simp only [hi, if_true]
    · by_cases hi2 : i < dst.len + bs.length
      · simp only [hi2, if_true]
        rw [List.getElem?_append_right (by omega), hlen]
        have hk := writeAt_getElem_in bs (h.arrays.getD dst.arr []) (dst.off + dst.len)
          (i - dst.len) (by omega) (by omega)
        rw [show dst.off + i = dst.off + dst.len + (i - dst.len) by omega, hk]
      · simp only [hi2, if_false]
        symm
        apply List.getElem?_eq_none
        rw [List.length_append, hlen]
        omega
  · simp only [hc, if_false]
    simp only [Heap.read, List.getD_eq_getElem?_getD]
    simp [hlen]

theorem store_last (arrs : List Bytes) (cur : Bytes) (p : Nat) (bs : Bytes) :
    ({ arrays := arrs ++ [cur] } : Heap).store arrs.length p bs
      = { arrays := arrs ++ [writeAt cur p bs] } := by
  simp [Heap.store, List.getD_eq_getElem?_getD, List.set_append]

theorem index_last (arrs : List Bytes) (cur : Bytes) (n i : Nat) (hn : cur.length = n) :
    ({ arrays := arrs ++ [cur] } : Heap).index
      { arr := arrs.length, off := 0, len := n, cap := n } i = cur[i]? := by
  simp only [Heap.index, List.getD_eq_getElem?_getD]
  by_cases hi : i < n
  · simp [hi]
  · simp only [hi, if_false]
    symm
    exact List.getElem?_eq_none (by omega)

theorem index_old (h : Heap) (cur : Bytes) (s : Slice) (i : Nat)
    (hs : s.arr < h.arrays.length) :
    ({ arrays := h.arrays ++ [cur] } : Heap).index s i = (h.read s)[i]? := by
  simp only [Heap.index, read_getElem, List.getD_append _ _ _ _ hs]

/-- One iteration of the loop on the heap is one iteration of the loop of `makeNonce` on
the bytes of the new array; no other array is written. -/
theorem xorStepH_eq (h : Heap) (iv : Slice) (hs : iv.arr < h.arrays.length) (cur : Bytes)
    (hn : cur.length = iv.len) (i : Nat) :
    xorStepH iv { arr := h.arrays.length, off := 0, len := iv.len, cap := iv.len }
        { arrays := h.arrays ++ [cur] } i
      = (xorStep (h.read iv) cur i).map (fun c => ({ arrays := h.arrays ++ [c] } : Heap)) := by
  unfold xorStepH xorStep
  rw [index_last h.arrays cur iv.len i hn, index_old h cur iv i hs]
  cases hx : cur[i]? with
  | none => rfl
  | some x =>
    cases hy : (h.read iv)[i]? with
    | none => rfl
    | some y =>
      have hi : i < iv.len := by
        by_contra hge
        rw [List.getElem?_eq_none (by omega)] at hx
        exact Option.noConfusion hx
      simp only [Option.bind_eq_bind, Option.some_bind, Heap.setIndex, hi, if_true,
        Nat.zero_add, store_last, writeAt, Option.pure_def, Option.map_some']

theorem xorStep_length (iv cur : Bytes) (i : Nat) (c : Bytes)
    (h : xorStep iv cur i = some c) : c.length = cur.length := by
  unfold xorStep at h
  cases hx : cur[i]? with
  | none => simp [hx] at h
  | some x =>
    cases hy : iv[i]? with
    | none => simp [hx, hy] at h
    | some y =>
      simp only [hx, hy, Option.bind_eq_bind, Option.some_bind, Option.pure_def,
        Option.some.injEq] at h
      rw [← h, List.length_set]

theorem xorLoopH_eq (h : Heap) (iv : Slice) (hs : iv.arr < h.arrays.length) (l : List Nat) :
    ∀ cur : Bytes, cur.length = iv.len →
      l.foldlM (xorStepH iv { arr := h.arrays.length, off := 0, len := iv.len, cap := iv.len })
          ({ arrays := h.arrays ++ [cur] } : Heap)
        = (l.foldlM (xorStep (h.read iv)) cur).map
            (fun c => ({ arrays := h.arrays ++ [c] } : Heap)) := by
  induction l with
  | nil => intro cur _; rfl
  | cons i l ih =>
    intro cur hn
    simp only [List.foldlM_cons]
    rw [xorStepH_eq h iv hs cur hn i]
    cases hstep : xorStep (h.read iv) cur i with
    | none => rfl
    | some c =>
      simp only [Option.map_some', Option.bind_eq_bind, Option.some_bind]
      exact ih c (by rw [xorStep_length _ _ _ _ hstep, hn])

theorem writeAt_zeros (n : Nat) (hn : 8 ≤ n) (bs : Bytes) (hb : bs.length = 8) :
    writeAt (List.replicate n 0) (n - 8) bs = List.replicate (n - 8) 0 ++ bs := by
  apply List.ext_getElem?
  intro j
  by_cases hj : j < n - 8
  · rw [writeAt_getElem_out _ _ _ _ (Or.inl hj), List.getElem?_append_left (by simpa using hj),
      List.getElem?_replicate, List.getElem?_replicate]
    simp [hj, show j < n by omega]
  · rw [List.getElem?_append_right (by simp; omega), List.length_replicate]
    by_cases hj2 : j < n
    · have hk := writeAt_getElem_in bs (List.replicate n 0) (n - 8) (j - (n - 8))
        (by simp; omega) (by omega)
      rw [show n - 8 + (j - (n - 8)) = j by omega] at hk
      exact hk
    · rw [writeAt_getElem_out _ _ _ _ (Or.inr (by omega)), List.getElem?_replicate]
      simp only [hj2, if_false]
      symm
      exact List.getElem?_eq_none (by omega)

/-- The function `makeNonce` on the heap reads the bytes of `iv`, leaves every array of the
heap as it was and adds one array: the nonce that `makeNonce` computes from those bytes. -/
theorem makeNonceH_eq (h : Heap) (iv : Slice) (pn : Nat) (hv : h.Valid iv) :
    makeNonceH h iv pn
      = (makeNonce (h.read iv) pn).map (fun n =>
          (({ arrays := h.arrays ++ [n] } : Heap),
           ({ arr := h.arrays.length, off := 0, len := iv.len, cap := iv.len } : Slice))) := by
  have hlen : (h.read iv).length = iv.len := read_length h iv hv
  by_cases h8 : iv.len < 8
  · rw [makeNonce_short _ _ (by omega)]
    simp [makeNonceH, h8]
  · have hge : 8 ≤ iv.len := by omega
    rw [makeNonce_unfold _ _ (by omega), hlen]
    have hloop := xorLoopH_eq h iv hv.1 (List.range iv.len)
      (List.replicate (iv.len - 8) 0 ++ uint64Bytes (pn % 2 ^ 64))
      (by simp [uint64Bytes_length]; omega)
    have hdrop : ({ arr := h.arrays.length, off := 0, len := iv.len, cap := iv.len } : Slice).drop
        (iv.len - 8) = some { arr := h.arrays.length, off := iv.len - 8, len := 8, cap := 8 } := by
      simp only [Slice.drop, Nat.sub_le, if_true, Nat.zero_add, Option.some.injEq,
        Slice.mk.injEq, true_and]
      omega
    have hput : ({ arrays := h.arrays ++ [List.replicate iv.len 0] } : Heap).putUint64
        { arr := h.arrays.length, off := iv.len - 8, len := 8, cap := 8 } (pn % 2 ^ 64)
        = some { arrays := h.arrays ++
            [List.replicate (iv.len - 8) 0 ++ uint64Bytes (pn % 2 ^ 64)] } := by
      simp only [Heap.putUint64, Nat.lt_irrefl, if_false, store_last,
        writeAt_zeros iv.len hge _ (uint64Bytes_length _)]
    simp only [makeNonceH, Heap.make, h8, if_false, hdrop, hput, Option.bind_eq_bind,
      Option.some_bind, hloop]
    cases (List.foldlM (xorStep (h.read iv))
      (List.replicate (iv.len - 8) 0 ++ uint64Bytes (pn % 2 ^ 64)) (List.range iv.len)) <;> rfl

/-- What `makeNonce` leaves on the heap: the arrays that were there, unchanged, and one new
array that holds the nonce; the value is that of `makeNonce` on the bytes of the IV. -/
theorem makeNonceH_spec (h : Heap) (iv : Slice) (pn : Nat) (hv : h.Valid iv) (h1 : Heap)
    (nonce : Slice) (hcall : makeNonceH h iv pn = some (h1, nonce)) :
    ∃ n, makeNonce (h.read iv) pn = some n ∧ h1.arrays = h.arrays ++ [n] ∧
      nonce.arr = h.arrays.length ∧ h1.read nonce = n := by
  rw [makeNonceH_eq h iv pn hv] at hcall
  cases hn : makeNonce (h.read iv) pn with
  | none => simp [hn] at hcall
  | some n =>
    simp only [hn, Option.map_some', Option.some.injEq, Prod.mk.injEq] at hcall
    obtain ⟨hh, hnonce⟩ := hcall
    subst hh hnonce
    refine ⟨n, rfl, rfl, rfl, ?_⟩
    have h8 : 8 ≤ (h.read iv).length := by
      by_contra hlt
      rw [makeNonce_short _ _ (by omega)] at hn
      exact Option.noConfusion hn
    obtain ⟨n', hn', hl, _⟩ := makeNonce_getElem (h.read iv) pn h8
    rw [hn] at hn'
    obtain rfl : n = n' := Option.some.inj hn'
    rw [read_length h iv hv] at hl
    simp [Heap.read, List.getD_eq_getElem?_getD, ← hl]

theorem extend_valid (h : Heap) (x : Bytes) (s : Slice) (hv : h.Valid s) :
    ({ arrays := h.arrays ++ [x] } : Heap).Valid s := by
  obtain ⟨h1, h2, h3⟩ := hv
  refine ⟨by simp; omega, h2, ?_⟩
  rw [List.getD_append _ _ _ _ h1]
  exact h3

/-- A call of `Seal` whose `dst` has no spare capacity in common with the IV leaves the
bytes of the IV as they were. -/
theorem sealerH_Seal_frame (s : sealerH) (h : Heap) (dst src : Slice) (pn : Nat) (ad : Slice)
    (hv : h.Valid s.iv) (hd : SpareDisjoint dst s.iv) (h' : Heap) (r : Slice)
    (hcall : s.Seal h dst src pn ad = some (h', r)) :
    h'.read s.iv = h.read s.iv ∧ h'.Valid s.iv := by
  unfold sealerH.Seal at hcall
  cases hm : makeNonceH h s.iv pn with
  | none => simp [hm] at hcall
  | some res =>
    obtain ⟨h1, nonce⟩ := res
    obtain ⟨n, _, harr, _, _⟩ := makeNonceH_spec h s.iv pn hv h1 nonce hm
    have hh1 : h1 = { arrays := h.arrays ++ [n] } := by
      cases h1
      simp only [Heap.mk.injEq]
      exact harr
    simp only [hm, Option.bind_eq_bind, Option.some_bind, Option.pure_def, Option.some.injEq,
      HeapAEAD.Seal] at hcall
    have hv1 : h1.Valid s.iv := by
      rw [hh1]
      exact extend_valid h n s.iv hv
    have hr1 : h1.read s.iv = h.read s.iv := by
      rw [hh1]
      exact extend_read h n s.iv hv.1
    have hh' : h' = (h1.append dst
        (s.aead.aead.Seal [] (h1.read nonce) (h1.read src) (h1.read ad))).1 := by
      rw [hcall]
    rw [hh']
    exact ⟨by rw [append_read_frame h1 dst _ s.iv hv1.1 hd, hr1],
      append_valid h1 dst _ s.iv hv1⟩

/-- The bytes `Seal` returns are the bytes of `dst` followed by the output of the primitive
for the nonce of the IV's bytes and the bytes of `src` and `ad`. -/
theorem sealerH_Seal_result (s : sealerH) (h : Heap) (dst src : Slice) (pn : Nat) (ad : Slice)
    (hv : h.Valid s.iv) (hdst : h.Valid dst) (hsrc : h.Valid src) (had : h.Valid ad)
    (h' : Heap) (r : Slice) (hcall : s.Seal h dst src pn ad = some (h', r)) :
    ∃ n, makeNonce (h.read s.iv) pn = some n ∧
      h'.read r = h.read dst ++ s.aead.aead.Seal [] n (h.read src) (h.read ad) := by
  unfold sealerH.Seal at hcall
  cases hm : makeNonceH h s.iv pn with
  | none => simp [hm] at hcall
  | some res =>
    obtain ⟨h1, nonce⟩ := res
    obtain ⟨n, hn, harr, _, hread⟩ := makeNonceH_spec h s.iv pn hv h1 nonce hm
    have hh1 : h1 = { arrays := h.arrays ++ [n] } := by
      cases h1
      simp only [Heap.mk.injEq]
      exact harr
    simp only [hm, Option.bind_eq_bind, Option.some_bind, Option.pure_def, Option.some.injEq,
      HeapAEAD.Seal] at hcall
    have e1 : h1.read src = h.read src := by rw [hh1]; exact extend_read h n src hsrc.1
    have e2 : h1.read ad = h.read ad := by rw [hh1]; exact extend_read h n ad had.1
    have e3 : h1.read dst = h.read dst := by rw [hh1]; exact extend_read h n dst hdst.1
    have hv1 : h1.Valid dst := by rw [hh1]; exact extend_valid h n dst hdst
    refine ⟨n, hn, ?_⟩
    have hres := append_read_result h1 dst
      (s.aead.aead.Seal [] (h1.read nonce) (h1.read src) (h1.read ad)) hv1
    rw [hread, e1, e2, e3] at hres
    rw [hread, e1, e2] at hcall
    rw [hcall] at hres
    exact hres

/-- After any sequence of calls of `Seal` whose `dst` have no spare capacity in common
with the IV, the bytes of the IV are as they were. -/
theorem sealerH_SealMany_frame (s : sealerH) (calls : List Call) :
    ∀ (h h' : Heap) (rs : List Slice), h.Valid s.iv →
      (∀ c ∈ calls, SpareDisjoint c.dst s.iv) → s.SealMany h calls = some (h', rs) →
      h'.read s.iv = h.read s.iv ∧ h'.Valid s.iv := by
  induction calls with
  | nil =>
    intro h h' rs hv _ hrun
    simp only [sealerH.SealMany, Option.some.injEq, Prod.mk.injEq] at hrun
    rw [← hrun.1]
    exact ⟨rfl, hv⟩
  | cons c cs ih =>
    intro h h' rs hv hd hrun
    simp only [sealerH.SealMany] at hrun
    cases hc : s.Seal h c.dst c.src c.pn c.ad with
    | none => simp [hc] at hrun
    | some res =>
      obtain ⟨h1, r⟩ := res
      simp only [hc, Option.bind_eq_bind, Option.some_bind] at hrun
      cases hm : s.SealMany h1 cs with
      | none => simp [hm] at hrun
      | some res2 =>
        obtain ⟨h2, rs2⟩ := res2
        simp only [hm, Option.some_bind, Option.pure_def, Option.some.injEq,
          Prod.mk.injEq] at hrun
        obtain ⟨e1, v1⟩ := sealerH_Seal_frame s h c.dst c.src c.pn c.ad hv
          (hd c (List.mem_cons_self _ _)) h1 r hc
        obtain ⟨e2, v2⟩ := ih h1 h2 rs2 v1
          (fun c' hc' => hd c' (List.mem_cons_of_mem _ hc')) hm
        rw [← hrun.1]
        exact ⟨by rw [e2, e1], v2⟩

/-- A call of `Open` whose `dst` has no spare capacity in common with the IV leaves the
bytes of the IV as they were, whether the primitive accepts or rejects. -/
theorem openerH_Open_frame (o : openerH) (h : Heap) (dst src : Slice) (pn : Nat) (ad : Slice)
    (hv : h.Valid o.iv) (hd : SpareDisjoint dst o.iv) (h' : Heap) (r : Except Error Slice)
    (hcall : o.Open h dst src pn ad = some (h', r)) :
    h'.read o.iv = h.read o.iv ∧ h'.Valid o.iv := by
  unfold openerH.Open at hcall
  cases hm : makeNonceH h o.iv pn with
  | none => simp [hm] at hcall
  | some res =>
    obtain ⟨h1, nonce⟩ := res
    obtain ⟨n, _, harr, _, _⟩ := makeNonceH_spec h o.iv pn hv h1 nonce hm
    have hh1 : h1 = { arrays := h.arrays ++ [n] } := by
      cases h1
      simp only [Heap.mk.injEq]
      exact harr
    simp only [hm, Option.bind_eq_bind, Option.some_bind, Option.pure_def, Option.some.injEq,
      HeapAEAD.Open] at hcall
    have hv1 : h1.Valid o.iv := by
      rw [hh1]
      exact extend_valid h n o.iv hv
    have hr1 : h1.read o.iv = h.read o.iv := by
      rw [hh1]
      exact extend_read h n o.iv hv.1
    cases hop : o.aead.aead.Open [] (h1.read nonce) (h1.read src) (h1.read ad) with
    | ok p =>
      simp only [hop, Prod.mk.injEq] at hcall
      rw [← hcall.1]
      exact ⟨by rw [append_read_frame h1 dst _ o.iv hv1.1 hd, hr1],
        append_valid h1 dst _ o.iv hv1⟩
    | error e =>
      simp only [hop, Prod.mk.injEq] at hcall
      rw [← hcall.1]
      exact ⟨by rw [append_read_frame h1 dst _ o.iv hv1.1 hd, hr1],
        append_valid h1 dst _ o.iv hv1⟩

/-- What `Open` returns: the error of the primitive, or a slice holding the bytes of `dst`
followed by the plaintext of the primitive, for the nonce of the IV's bytes and the bytes
of `src` and `ad`. -/
theorem openerH_Open_result (o : openerH) (h : Heap) (dst src : Slice) (pn : Nat) (ad : Slice)
    (hv : h.Valid o.iv) (hdst : h.Valid dst) (hsrc : h.Valid src) (had : h.Valid ad)
    (h' : Heap) (r : Except Error Slice) (hcall : o.Open h dst src pn ad = some (h', r)) :
    ∃ n, makeNonce (h.read o.iv) pn = some n ∧
      r.map h'.read
        = (o.aead.aead.Open [] n (h.read src) (h.read ad)).map (fun p => h.read dst ++ p) := by
  unfold openerH.Open at hcall
  cases hm : makeNonceH h o.iv pn with
  | none => simp [hm] at hcall
  | some res =>
    obtain ⟨h1, nonce⟩ := res
    obtain ⟨n, hn, harr, _, hread⟩ := makeNonceH_spec h o.iv pn hv h1 nonce hm
    have hh1 : h1 = { arrays := h.arrays ++ [n] } := by
      cases h1
      simp only [Heap.mk.injEq]
      exact harr
    simp only [hm, Option.bind_eq_bind, Option.some_bind, Option.pure_def, Option.some.injEq,
      HeapAEAD.Open] at hcall
    have e1 : h1.read src = h.read src := by rw [hh1]; exact extend_read h n src hsrc.1
    have e2 : h1.read ad = h.read ad := by rw [hh1]; exact extend_read h n ad had.1
    have e3 : h1.read dst = h.read dst := by rw [hh1]; exact extend_read h n dst hdst.1
    have hv1 : h1.Valid dst := by rw [hh1]; exact extend_valid h n dst hdst
    refine ⟨n, hn, ?_⟩
    rw [hread, e1, e2] at hcall
    cases hop : o.aead.aead.Open [] n (h.read src) (h.read ad) with
    | ok p =>
      simp only [hop, Prod.mk.injEq] at hcall
      have hres := append_read_result h1 dst p hv1
      rw [e3] at hres
      rw [← hcall.1, ← hcall.2]
      simp only [Except.map]
      rw [hres]
    | error e =>
      simp only [hop, Prod.mk.injEq] at hcall
      rw [← hcall.2]
      rfl

/-- After any sequence of calls of `Open` whose `dst` have no spare capacity in common
with the IV, the bytes of the IV are as they were. -/
theorem openerH_OpenMany_frame (o : openerH) (calls : List Call) :
    ∀ (h h' : Heap) (rs : List (Except Error Slice)), h.Valid o.iv →
      (∀ c ∈ calls, SpareDisjoint c.dst o.iv) → o.OpenMany h calls = some (h', rs) →
      h'.read o.iv = h.read o.iv ∧ h'.Valid o.iv := by
  induction calls with
  | nil =>
    intro h h' rs hv _ hrun
    simp only [openerH.OpenMany, Option.some.injEq, Prod.mk.injEq] at hrun
    rw [← hrun.1]
    exact ⟨rfl, hv⟩
  | cons c cs ih =>
    intro h h' rs hv hd hrun
    simp only [openerH.OpenMany] at hrun
    cases hc : o.Open h c.dst c.src c.pn c.ad with
    | none => simp [hc] at hrun
    | some res =>
      obtain ⟨h1, r⟩ := res
      simp only [hc, Option.bind_eq_bind, Option.some_bind] at hrun
      cases hm : o.OpenMany h1 cs with
      | none => simp [hm] at hrun
      | some res2 =>
        obtain ⟨h2, rs2⟩ := res2
        simp only [hm, Option.some_bind, Option.pure_def, Option.some.injEq,
          Prod.mk.injEq] at hrun
        obtain ⟨e1, v1⟩ := openerH_Open_frame o h c.dst c.src c.pn c.ad hv
          (hd c (List.mem_cons_self _ _)) h1 r hc
        obtain ⟨e2, v2⟩ := ih h1 h2 rs2 v1
          (fun c' hc' => hd c' (List.mem_cons_of_mem _ hc')) hm
        rw [← hrun.1]
        exact ⟨by rw [e2, e1], v2⟩

/-- C16, as the code has it: sealer and opener hold no per-packet state as long as the
primitive is not made to append into the IV. `makeNonce` leaves every array of the heap
as it was and writes the nonce into a new one. After any sequence of calls of `Seal` (of
`Open`) in which the spare capacity of `dst` shares no byte with the stored IV, the IV is
byte for byte what it was, and a call whose arguments hold the same bytes as before the
sequence returns the same bytes (the same error) as it does before the sequence: the
result is the bytes of `dst` followed by the output of the primitive for the nonce of the
IV's bytes and the bytes of `src` and `ad`. -/
theorem sealer_opener_stateless (s : sealerH) (o : openerH) (h : Heap)
    (hs : h.Valid s.iv) (ho : h.Valid o.iv) :
    (∀ pn h1 nonce, makeNonceH h s.iv pn = some (h1, nonce) →
      ∃ n, makeNonce (h.read s.iv) pn = some n ∧ h1.arrays = h.arrays ++ [n] ∧
        nonce.arr = h.arrays.length ∧ h1.read nonce = n) ∧
    (∀ c : Call, h.Valid c.dst → h.Valid c.src → h.Valid c.ad →
      ∀ h1 r1, s.Seal h c.dst c.src c.pn c.ad = some (h1, r1) →
        ∃ n, makeNonce (h.read s.iv) c.pn = some n ∧
          h1.read r1 = h.read c.dst ++ s.aead.aead.Seal [] n (h.read c.src) (h.read c.ad)) ∧
    (∀ c : Call, h.Valid c.dst → h.Valid c.src → h.Valid c.ad →
      ∀ h1 r1, o.Open h c.dst c.src c.pn c.ad = some (h1, r1) →
        ∃ n, makeNonce (h.read o.iv) c.pn = some n ∧
          r1.map h1.read = (o.aead.aead.Open [] n (h.read c.src) (h.read c.ad)).map
            (fun p => h.read c.dst ++ p)) ∧
    (∀ calls h' rs, (∀ c ∈ calls, SpareDisjoint c.dst s.iv) →
      s.SealMany h calls = some (h', rs) →
      h'.read s.iv = h.read s.iv ∧
      ∀ c : Call, h.Valid c.dst → h.Valid c.src → h.Valid c.ad →
        h'.Valid c.dst → h'.Valid c.src → h'.Valid c.ad →
        h'.read c.dst = h.read c.dst → h'.read c.src = h.read c.src →
        h'.read c.ad = h.read c.ad →
        ∀ h1 r1 h2 r2, s.Seal h c.dst c.src c.pn c.ad = some (h1, r1) →
          s.Seal h' c.dst c.src c.pn c.ad = some (h2, r2) → h2.read r2 = h1.read r1) ∧
    (∀ calls h' rs, (∀ c ∈ calls, SpareDisjoint c.dst o.iv) →
      o.OpenMany h calls = some (h', rs) →
      h'.read o.iv = h.read o.iv ∧
      ∀ c : Call, h.Valid c.dst → h.Valid c.src → h.Valid c.ad →
        h'.Valid c.dst → h'.Valid c.src → h'.Valid c.ad →
        h'.read c.dst = h.read c.dst → h'.read c.src = h.read c.src →
        h'.read c.ad = h.read c.ad →
        ∀ h1 r1 h2 r2, o.Open h c.dst c.src c.pn c.ad = some (h1, r1) →
          o.Open h' c.dst c.src c.pn c.ad = some (h2, r2) →
          r2.map h2.read = r1.map h1.read) := by
  refine ⟨?_, ?_, ?_, ?_, ?_⟩
  · intro pn h1 nonce hcall
    exact makeNonceH_spec h s.iv pn hs h1 nonce hcall
  · intro c hd hsrc had h1 r1 hcall
    exact sealerH_Seal_result s h c.dst c.src c.pn c.ad hs hd hsrc had h1 r1 hcall
  · intro c hd hsrc had h1 r1 hcall
    exact openerH_Open_result o h c.dst c.src c.pn c.ad ho hd hsrc had h1 r1 hcall
  · intro calls h' rs hdisj hrun
    obtain ⟨hiv, hv'⟩ := sealerH_SealMany_frame s calls h h' rs hs hdisj hrun
    refine ⟨hiv, ?_⟩
    intro c hd hsrc had hd' hsrc' had' ed es ea h1 r1 h2 r2 hc1 hc2
    obtain ⟨n1, hn1, hr1⟩ := sealerH_Seal_result s h c.dst c.src c.pn c.ad hs hd hsrc had
      h1 r1 hc1
    obtain ⟨n2, hn2, hr2⟩ := sealerH_Seal_result s h' c.dst c.src c.pn c.ad hv' hd' hsrc' had'
      h2 r2 hc2
    rw [hiv, hn1] at hn2
    obtain rfl : n1 = n2 := Option.some.inj hn2
    rw [hr1, hr2, ed, es, ea]
  · intro calls h' rs hdisj hrun
    obtain ⟨hiv, hv'⟩ := openerH_OpenMany_frame o calls h h' rs ho hdisj hrun
    refine ⟨hiv, ?_⟩
    intro c hd hsrc had hd' hsrc' had' ed es ea h1 r1 h2 r2 hc1 hc2
    obtain ⟨n1, hn1, hr1⟩ := openerH_Open_result o h c.dst c.src c.pn c.ad ho hd hsrc had
      h1 r1 hc1
    obtain ⟨n2, hn2, hr2⟩ := openerH_Open_result o h' c.dst c.src c.pn c.ad hv' hd' hsrc' had'
      h2 r2 hc2
    rw [hiv, hn1] at hn2
    obtain rfl : n1 = n2 := Option.some.inj hn2
    rw [hr1, hr2, ed, es, ea]

/-- The amended C16 on the sample heap: two calls of `Seal` that append into the separate
buffer leave the IV `1, ..., 12` as it was, and sealing `1, 2, 3` with packet number 5
gives `1, 2, 3, 90` before and after them. -/
theorem sealer_opener_stateless_witness :
    sampleHeap.Valid (newSealerH sampleHeapAEAD sampleIV).iv ∧
    sampleHeap.Valid (newOpenerH sampleHeapAEAD sampleIV).iv ∧
    SpareDisjoint sampleBuf sampleIV ∧
    (((newSealerH sampleHeapAEAD sampleIV).SealMany sampleHeap
        [⟨sampleBuf, sampleSrc, 6, sampleAd⟩, ⟨sampleBuf, sampleAd, 7, sampleSrc⟩]).map
          (fun r => r.1.read sampleIV)) = some [1, 2, 3, 4, 5, 6, 7, 8, 9, 10, 11, 12] ∧
    (((newSealerH sampleHeapAEAD sampleIV).Seal sampleHeap sampleBuf sampleSrc 5 sampleAd).map
      (fun r => r.1.read r.2)) = some [1, 2, 3, 90] ∧
    ((((newSealerH sampleHeapAEAD sampleIV).SealMany sampleHeap
        [⟨sampleBuf, sampleSrc, 6, sampleAd⟩, ⟨sampleBuf, sampleAd, 7, sampleSrc⟩]).bind
          (fun r => (newSealerH sampleHeapAEAD sampleIV).Seal r.1
            sampleBuf sampleSrc 5 sampleAd)).map (fun r => r.1.read r.2))
      = some [1, 2, 3, 90] ∧
    ({ arrays := [[1, 2, 3, 4, 5, 6, 7, 8, 9, 10, 11, 12], [1, 2, 3], [9],
        [9, 92, 3, 91, 0, 0, 0, 0], [1, 2, 3, 4, 5, 6, 7, 8, 9, 10, 11, 10],
        [1, 2, 3, 4, 5, 6, 7, 8, 9, 10, 11, 11]] } : Heap).read sampleIV
      = sampleHeap.read sampleIV :=
  ⟨⟨by decide, by decide, by decide⟩, ⟨by decide, by decide, by decide⟩,
    Or.inl (by decide), by rfl, by rfl, by rfl,
    ((sealer_opener_stateless (newSealerH sampleHeapAEAD sampleIV)
      (newOpenerH sampleHeapAEAD sampleIV) sampleHeap
      ⟨by decide, by decide, by decide⟩ ⟨by decide, by decide, by decide⟩).2.2.2.1
      [⟨sampleBuf, sampleSrc, 6, sampleAd⟩, ⟨sampleBuf, sampleAd, 7, sampleSrc⟩]
      { arrays := [[1, 2, 3, 4, 5, 6, 7, 8, 9, 10, 11, 12], [1, 2, 3], [9],
          [9, 92, 3, 91, 0, 0, 0, 0], [1, 2, 3, 4, 5, 6, 7, 8, 9, 10, 11, 10],
          [1, 2, 3, 4, 5, 6, 7, 8, 9, 10, 11, 11]] }
      [{ arr := 3, off := 0, len := 4, cap := 8 }, { arr := 3, off := 0, len := 2, cap := 8 }]
      (fun c hc => by
        simp only [List.mem_cons, List.mem_singleton, List.not_mem_nil, or_false] at hc
        rcases hc with rfl | rfl <;> exact Or.inl (by decide))
      rfl).1⟩

/-- C16 fails when `dst` shares storage with the IV: `newSealer` and `newOpener` keep the
caller's slice, and a call with `dst = iv[:0]` lets the primitive append into the array of
the IV. On the sample heap `Seal(iv[:0], src, 5, ad)` turns the stored IV `1, ..., 12` into
`1, 2, 3, 90, 5, ..., 12`, and the same call made again returns `1, 2, 3, 176` instead of
`1, 2, 3, 90`. Likewise `Open(iv[:0], src, 5, ad)` on the sealed text `7, 7, 7, 105`
succeeds, turns the stored IV into `7, 7, 7, 4, ..., 12`, and the same call made again
fails. -/
theorem append_into_iv_changes_iv :
    sampleHeap.read sampleIV = [1, 2, 3, 4, 5, 6, 7, 8, 9, 10, 11, 12] ∧
    ¬ SpareDisjoint sampleIVPrefix sampleIV ∧
    (((newSealerH sampleHeapAEAD sampleIV).Seal sampleHeap
        sampleIVPrefix sampleSrc 5 sampleAd).map
      (fun r => (r.1.read sampleIV, r.1.read r.2)))
      = some ([1, 2, 3, 90, 5, 6, 7, 8, 9, 10, 11, 12], [1, 2, 3, 90]) ∧
    ((((newSealerH sampleHeapAEAD sampleIV).Seal sampleHeap
        sampleIVPrefix sampleSrc 5 sampleAd).bind
          (fun r => (newSealerH sampleHeapAEAD sampleIV).Seal r.1
            sampleIVPrefix sampleSrc 5 sampleAd)).map (fun r => r.1.read r.2))
      = some [1, 2, 3, 176] ∧
    (((newOpenerH sampleHeapAEAD sampleIV).Open
        { arrays := [[1, 2, 3, 4, 5, 6, 7, 8, 9, 10, 11, 12], [7, 7, 7, 105], [9]] }
        sampleIVPrefix { arr := 1, off := 0, len := 4, cap := 4 } 5 sampleAd).map
      (fun r => (r.1.read sampleIV, r.2.map r.1.read)))
      = some ([7, 7, 7, 4, 5, 6, 7, 8, 9, 10, 11, 12], .ok [7, 7, 7]) ∧
    ((((newOpenerH sampleHeapAEAD sampleIV).Open
        { arrays := [[1, 2, 3, 4, 5, 6, 7, 8, 9, 10, 11, 12], [7, 7, 7, 105], [9]] }
        sampleIVPrefix { arr := 1, off := 0, len := 4, cap := 4 } 5 sampleAd).bind
          (fun r => (newOpenerH sampleHeapAEAD sampleIV).Open r.1
            sampleIVPrefix { arr := 1, off := 0, len := 4, cap := 4 } 5 sampleAd)).map
      (fun r => r.2.map r.1.read))
      = some (.error (Error.other "cipher: message authentication failed")) := by
  refine ⟨by decide, ?_, by rfl, by rfl, by rfl, by rfl⟩
  unfold SpareDisjoint
  decide

/-- C12: flipping any single bit of the sealed ciphertext or of the associated data makes
`opener.Open` fail, with the error of the AEAD primitive and no plaintext. The sealer and
the opener (same IV of at least 8 bytes, same packet number) hand the primitive the same
nonce and pass ciphertext and associated data through unchanged, so the integrity of the
primitive for the sealed message, `RejectsBitFlips`, is the integrity of the packet. -/
theorem opener_rejects_single_bit_flips (a : AEAD) (iv : Bytes) (hlen : 8 ≤ iv.length)
    (P A : Bytes) (pn : Nat)
    (hauth : ∀ nonce, makeNonce iv pn = some nonce → a.RejectsBitFlips nonce P A)
    (C C' A' : Bytes)
    (hC : (newSealer a iv).Seal [] P pn A = some C) (hflip : SingleBitFlip C A C' A') :
    ∃ nonce e, makeNonce iv pn = some nonce ∧ a.Open [] nonce C' A' = .error e ∧
      (newOpener a iv).Open [] C' pn A' = some (.error e) := by
  obtain ⟨nonce, hn, _⟩ := makeNonce_getElem iv pn hlen
  have hs : (newSealer a iv).Seal [] P pn A = some (a.Seal [] nonce P A) := by
    simp [sealer.Seal, newSealer, hn]
  rw [hs] at hC
  have hC' : a.Seal [] nonce P A = C := Option.some.inj hC
  subst hC'
  obtain ⟨e, he⟩ := hauth nonce hn C' A' hflip
  refine ⟨nonce, e, hn, he, ?_⟩
  simp [opener.Open, newOpener, hn, he]

/-- C12 at the sample AEAD: bit 0 of the associated data `9` is flipped, and the opener
rejects. -/
theorem opener_rejects_single_bit_flips_witness :
    8 ≤ [1, 2, 3, 4, 5, 6, 7, 8, 9, 10, 11, 12].length ∧
    (newSealer sampleAEAD [1, 2, 3, 4, 5, 6, 7, 8, 9, 10, 11, 12]).Seal [] [1, 2, 3] 5 [9]
      = some [1, 2, 3, 90] ∧
    SingleBitFlip [1, 2, 3, 90] [9] [1, 2, 3, 90] [8] ∧
    (newOpener sampleAEAD [1, 2, 3, 4, 5, 6, 7, 8, 9, 10, 11, 12]).Open [] [1, 2, 3, 90] 5 [8]
      = some (.error (Error.other "cipher: message authentication failed")) ∧
    ∃ nonce e, makeNonce [1, 2, 3, 4, 5, 6, 7, 8, 9, 10, 11, 12] 5 = some nonce ∧
      sampleAEAD.Open [] nonce [1, 2, 3, 90] [8] = .error e ∧
      (newOpener sampleAEAD [1, 2, 3, 4, 5, 6, 7, 8, 9, 10, 11, 12]).Open [] [1, 2, 3, 90] 5 [8]
        = some (.error e) :=
  ⟨by decide, by rfl, Or.inr ⟨0, 0, by decide, by decide, rfl, rfl⟩, by rfl,
    opener_rejects_single_bit_flips sampleAEAD [1, 2, 3, 4, 5, 6, 7, 8, 9, 10, 11, 12]
      (by decide) [1, 2, 3] [9] 5
      (fun nonce _ C' A' hf => sampleAEAD_rejects_flips nonce [1, 2, 3] [9] C' A' hf)
      [1, 2, 3, 90] [1, 2, 3, 90] [8]
      (by rfl) (Or.inr ⟨0, 0, by decide, by decide, rfl, rfl⟩)⟩

end QuicGo
